import Mathlib

/-!
# Horus Project primary flight display: telemetry pipeline

A shallow embedding of `src/main.cpp` (class `PFDMainWindow`): the serial frame
decoder `readSerialData`, the attitude parser `parseSerialLine`, and the two
tick handlers `updateDisplay` (live mode) and `updateSimulation` (simulated
mode), together with the properties the specification states about them.

Modelling conventions.

* The contents of a `QByteArray` and of a `QString` are character sequences
  (`List Char`): in a `QByteArray` each character stands for one byte (its code
  is the byte value), in a `QString` for one decoded character. The implicit
  `QByteArray` to `QString` conversion in `readSerialData` is
  `QString::fromUtf8`, a parameter of the embedded functions.
* `float` and `double` values are rationals; every arithmetic operation of the
  source is followed by the explicit rounding of its IEEE-754 format
  (`rnd 24` for `float`, `rnd 53` for `double`, round to nearest, ties to even).
  Exponent range limits (overflow, subnormals), infinities and NaN are outside
  the model.
* Library functions whose values are not fixed by the source
  (`QString::fromUtf8`, `QString::toFloat`, `std::sin`, the wall clock) are
  parameters of the embedded functions; the theorems hold for every value of
  them, and reference instances are used on concrete inputs only.
-/

namespace Horus

/-! ## Qt containers -/

/-- Contents of a `QByteArray`: one character per byte. -/
abbrev QByteArray := List Char

/-- Contents of a `QString`: one character per decoded character. -/
abbrev QString := List Char

/-- The whitespace test used by `QByteArray::trimmed`: the ASCII characters
tab, line feed, vertical tab, form feed, carriage return (codes 9 to 13) and space. -/
def isSpace (c : Char) : Bool :=
  c == ' ' || (9 ≤ c.toNat && c.toNat ≤ 13)

/-- `QByteArray::contains(char)`. -/
def contains (b : QByteArray) (c : Char) : Bool :=
  b.elem c

/-- `QByteArray::indexOf(char)`: position of the first occurrence. The source
calls it only under the guard `contains`, so Qt's not-found value `-1` never
arises there; on a sequence without the character this model returns its length. -/
def indexOf : QByteArray → Char → Nat
  | [], _ => 0
  | x :: xs, c => if x = c then 0 else indexOf xs c + 1

/-- `QByteArray::left(len)`: the first `len` characters. -/
def left (b : QByteArray) (len : Nat) : QByteArray :=
  b.take len

/-- `QByteArray::remove(pos, len)`: delete `len` characters starting at `pos`. -/
def remove (b : QByteArray) (pos len : Nat) : QByteArray :=
  b.take pos ++ b.drop (pos + len)

/-- `QByteArray::trimmed()`: strip whitespace from both ends. -/
def trimmed (b : QByteArray) : QByteArray :=
  ((b.dropWhile isSpace).reverse.dropWhile isSpace).reverse

/-- `QString::split(sep)` with the default `KeepEmptyParts` behaviour: the
fields between separators, empty ones included; always at least one field. -/
def split (sep : Char) : QString → List QString
  | [] => [[]]
  | c :: cs =>
    if c = sep then [] :: split sep cs
    else
      match split sep cs with
      | [] => [[c]]
      | p :: ps => (c :: p) :: ps

/-! ## Program state -/

/-- The data members of `PFDMainWindow` that the telemetry pipeline reads or
writes (widget pointers are not part of the model). -/
structure State where
  serialBuffer : QByteArray
  simTime : ℚ
  pitch : ℚ
  roll : ℚ
  temperature : ℚ
  altitude : ℚ
  speed : ℚ
  heading : ℚ
deriving DecidableEq

/-- Assignment to the member `serialBuffer`. -/
def State.setBuffer (st : State) (b : QByteArray) : State :=
  { st with serialBuffer := b }

/-- What `parseSerialLine` reports for a line: the attitude was updated
(`qDebug` "MPU6050 - Pitch: .. Roll: .."), or the line was rejected with
`qWarning` "Failed to parse pitch/roll:" or `qWarning` "Invalid data format:". -/
inductive ParseOutcome where
  | updated
  | failedToParse
  | invalidFormat
deriving DecidableEq

/-- `PFDMainWindow::parseSerialLine`. `toFloat` is `QString::toFloat(&ok)`,
returning the value and the `ok` flag. The function-local counter `frameCount`
is written but never read and is not modelled. -/
def parseSerialLine (toFloat : QString → ℚ × Bool) (line : QString) (st : State) :
    State × ParseOutcome :=
  let parts := split ',' line
  if 2 ≤ parts.length then
    let r1 := toFloat (parts.getD 0 [])
    let r2 := toFloat (parts.getD 1 [])
    let newPitch := r1.1
    let ok1 := r1.2
    let newRoll := r2.1
    let ok2 := r2.2
    if ok1 && ok2 then
      ({ st with pitch := newPitch, roll := newRoll }, ParseOutcome.updated)
    else
      (st, ParseOutcome.failedToParse)
  else
    (st, ParseOutcome.invalidFormat)

/-- The `while (serialBuffer.contains('\n'))` loop of `readSerialData`. Each
iteration removes at least one character from the buffer, so `fuel` equal to
the buffer length is enough for the loop to run to completion (see
`processLines_fuel`). `fromUtf8` is the implicit conversion of the trimmed
`QByteArray` to the `QString line` (`QString::fromUtf8`). Returns the final
state and the lines handed to `parseSerialLine`, in call order. -/
def processLines (fromUtf8 : QByteArray → QString) (toFloat : QString → ℚ × Bool) :
    Nat → State → State × List QString
  | 0, st => (st, [])
  | fuel + 1, st =>
    if contains st.serialBuffer '\n' then
      let newlineIndex := indexOf st.serialBuffer '\n'
      let line : QString := fromUtf8 (trimmed (left st.serialBuffer newlineIndex))
      let st1 := st.setBuffer (remove st.serialBuffer 0 (newlineIndex + 1))
      if !line.isEmpty then
        let r := processLines fromUtf8 toFloat fuel (parseSerialLine toFloat line st1).1
        (r.1, line :: r.2)
      else
        processLines fromUtf8 toFloat fuel st1
    else
      (st, [])

/-- `PFDMainWindow::readSerialData`. `data` is what `serialPort->readAll()`
returned. Returns the final state and the lines handed to `parseSerialLine`. -/
def readSerialData (fromUtf8 : QByteArray → QString) (toFloat : QString → ℚ × Bool)
    (data : QByteArray) (st : State) : State × List QString :=
  let st0 := st.setBuffer (st.serialBuffer ++ data)
  processLines fromUtf8 toFloat st0.serialBuffer.length st0

/-- Feeding a sequence of chunks, one `readSerialData` call per chunk; the
delivered lines of the successive calls are concatenated. -/
def feedChunks (fromUtf8 : QByteArray → QString) (toFloat : QString → ℚ × Bool) :
    List QByteArray → State → State × List QString
  | [], st => (st, [])
  | d :: ds, st =>
    let r1 := readSerialData fromUtf8 toFloat d st
    let r2 := feedChunks fromUtf8 toFloat ds r1.1
    (r2.1, r1.2 ++ r2.2)

/-! ## Floating-point arithmetic -/

/-- Number of binary digits of `n`, by halving (`fuel` bounds the halvings). -/
def bitLenAux : Nat → Nat → Nat
  | 0, _ => 0
  | fuel + 1, n => if n = 0 then 0 else bitLenAux fuel (n / 2) + 1

/-- Number of binary digits of `n`: `bitLen 0 = 0`, `bitLen 5 = 3`. -/
def bitLen (n : Nat) : Nat :=
  bitLenAux n n

/-- Binary exponent of a non-zero rational: the `e` with `2^e ≤ |x| < 2^(e+1)`. -/
def ilog2 (x : ℚ) : ℤ :=
  let e : ℤ := (bitLen x.num.natAbs : ℤ) - (bitLen x.den : ℤ)
  if |x| < (2 : ℚ) ^ e then e - 1 else e

/-- Nearest integer, ties to the even one. -/
def roundHalfEven (y : ℚ) : ℤ :=
  let f := ⌊y⌋
  let r := y - f
  if r < 1 / 2 then f else if 1 / 2 < r then f + 1 else if f % 2 = 0 then f else f + 1

/-- Rounding to the nearest binary floating-point number with a `p`-bit
significand, ties to even (the IEEE-754 default rounding): `p = 53` is
`double`, `p = 24` is `float`. -/
def rnd (p : ℕ) (x : ℚ) : ℚ :=
  if x = 0 then 0
  else
    let k : ℤ := (p : ℤ) - 1 - ilog2 x
    (roundHalfEven (x * (2 : ℚ) ^ k) : ℚ) / (2 : ℚ) ^ k

/-- A `double` literal, or conversion to `double`. -/
def f64 (x : ℚ) : ℚ := rnd 53 x

/-- A `float` literal, or conversion (narrowing) to `float`. -/
def f32 (x : ℚ) : ℚ := rnd 24 x

/-- Addition of two `double` values. -/
def dadd (x y : ℚ) : ℚ := rnd 53 (x + y)

/-- Multiplication of two `double` values. -/
def dmul (x y : ℚ) : ℚ := rnd 53 (x * y)

/-- Truncation toward zero, as in `static_cast<int>` of a `double` (the value
is taken to fit in an `int`). -/
def truncToInt (x : ℚ) : ℤ :=
  x.num.tdiv x.den

/-- `std::fmod(x, y)`: `x - n * y` with `n` the quotient `x / y` truncated
toward zero; the result is exact (no rounding). -/
def fmod (x y : ℚ) : ℚ :=
  x - y * (truncToInt (x / y) : ℚ)

/-! ## Reference number parser

`QString::toFloat` on plain decimal notation (optional sign, digits, optional
fraction): the decimal value converted to `double` and narrowed to `float`.
It instantiates the `toFloat` parameter on concrete protocol lines. -/

/-- Value of a string of decimal digits read left to right, starting from `acc`. -/
def digitsValue (acc : Nat) : List Char → Nat
  | [] => acc
  | c :: cs => digitsValue (acc * 10 + (c.toNat - 48)) cs

/-- An unsigned plain decimal: digits, optionally a point and more digits,
with at least one digit overall. -/
def parseUnsigned (s : List Char) : Option ℚ :=
  let ip := s.takeWhile Char.isDigit
  match s.dropWhile Char.isDigit with
  | [] => if ip.isEmpty then none else some (digitsValue 0 ip : ℚ)
  | c :: fp =>
    if c = '.' && fp.all Char.isDigit && !(ip.isEmpty && fp.isEmpty) then
      some ((digitsValue 0 ip : ℚ) + (digitsValue 0 fp : ℚ) / (10 : ℚ) ^ fp.length)
    else none

/-- A plain decimal with an optional sign. -/
def parseDecimal : List Char → Option ℚ
  | [] => none
  | c :: s =>
    if c = '-' then (parseUnsigned s).map (fun q => -q)
    else if c = '+' then parseUnsigned s
    else parseUnsigned (c :: s)

/-- The reference `toFloat`: value and `ok` flag (`0` and `false` on failure). -/
def toFloatDecimal (s : QString) : ℚ × Bool :=
  match parseDecimal s with
  | some q => (f32 (f64 q), true)
  | none => (0, false)

/-! ## Reference text decoder

`QString::fromUtf8` on input without NUL bytes: a byte-order mark at the very
start is skipped, a well-formed UTF-8 sequence gives its character, and a byte
that does not start a well-formed sequence gives the replacement character
U+FFFD. (Qt 5 stops at the first NUL byte, Qt 6 keeps it; this reference keeps
it. A character beyond U+FFFF is one character here and two UTF-16 code units
in a `QString`.) It instantiates the `fromUtf8` parameter on concrete inputs,
all of them ASCII text apart from a byte-order mark. -/

/-- A UTF-8 continuation byte, `0x80` to `0xBF`. -/
def isContinuationByte (c : Char) : Bool :=
  c.toNat / 64 == 2

/-- Acceptance test of a decoded value `uc` that took `k` continuation bytes:
not an overlong form (`minUc` is the least value needing that length), not a
surrogate, not beyond U+10FFFF. -/
def checkDecoded (minUc uc k : Nat) : Option (Nat × Nat) :=
  if uc < minUc || (0xD800 ≤ uc && uc ≤ 0xDFFF) || 0x10FFFF < uc then none else some (uc, k)

/-- Decoding of the multi-byte sequence led by the non-ASCII byte `b` and
continued in `rest`: the character code and the number of continuation bytes
used, or `none` when the sequence is malformed. -/
def decodeSequence (b : Char) (rest : List Char) : Option (Nat × Nat) :=
  let n := b.toNat
  if n ≤ 0xC1 then none
  else if n < 0xE0 then
    match rest with
    | c1 :: _ =>
      if isContinuationByte c1 then checkDecoded 0x80 (n % 32 * 64 + c1.toNat % 64) 1 else none
    | [] => none
  else if n < 0xF0 then
    match rest with
    | c1 :: c2 :: _ =>
      if isContinuationByte c1 && isContinuationByte c2 then
        checkDecoded 0x800 ((n % 16 * 64 + c1.toNat % 64) * 64 + c2.toNat % 64) 2
      else none
    | _ => none
  else if n < 0xF5 then
    match rest with
    | c1 :: c2 :: c3 :: _ =>
      if isContinuationByte c1 && isContinuationByte c2 && isContinuationByte c3 then
        checkDecoded 0x10000
          (((n % 8 * 64 + c1.toNat % 64) * 64 + c2.toNat % 64) * 64 + c3.toNat % 64) 3
      else none
    | _ => none
  else none

/-- The decoding loop; `skip` counts continuation bytes already consumed by
the sequence in progress. -/
def utf8DecodeAux : Nat → List Char → List Char
  | _, [] => []
  | skip + 1, _ :: rest => utf8DecodeAux skip rest
  | 0, b :: rest =>
    if b.toNat < 128 then b :: utf8DecodeAux 0 rest
    else
      match decodeSequence b rest with
      | some (uc, k) => Char.ofNat uc :: utf8DecodeAux k rest
      | none => Char.ofNat 0xFFFD :: utf8DecodeAux 0 rest

/-- The reference `fromUtf8`: skip a leading byte-order mark `EF BB BF`, then
decode. -/
def utf8Decode (b : QByteArray) : QString :=
  match b with
  | b0 :: b1 :: b2 :: rest =>
    if b0.toNat == 0xEF && b1.toNat == 0xBB && b2.toNat == 0xBF then utf8DecodeAux 0 rest
    else utf8DecodeAux 0 b
  | _ => utf8DecodeAux 0 b

/-- A byte sequence of ASCII characters other than NUL. -/
def isPlainAscii (b : QByteArray) : Bool :=
  b.all (fun c => 0 < c.toNat && c.toNat < 128)

/-- The three bytes `EF BB BF` of a UTF-8 byte-order mark. -/
def utf8Bom : QByteArray :=
  [Char.ofNat 0xEF, Char.ofNat 0xBB, Char.ofNat 0xBF]

/-- A received byte stream of two newline-terminated segments: a byte-order
mark followed by a space and `1,2`, then a byte-order mark alone. -/
def bomStream : QByteArray :=
  utf8Bom ++ " 1,2\n".toList ++ utf8Bom ++ "\n".toList

/-! ## Tick handlers -/

/-- The arguments of `AttitudeIndicator::setAttitude`: one instrument snapshot. -/
structure Snapshot where
  pitch : ℚ
  roll : ℚ
  altitude : ℚ
  speed : ℚ
  heading : ℚ
  QNH : ℚ
  flightMode : String
  timeStr : String
  rpm : List ℤ
  batteryState : ℚ
  batteryLevel : ℚ
  propQuantity : ℤ
  OAT : ℚ
deriving DecidableEq

/-- The statement `simTime += 0.02;` that opens both tick handlers. -/
def advanceClock (simTime : ℚ) : ℚ :=
  dadd simTime (f64 (2 / 100))

/-- The body of `updateDisplay` after the clock increment: the snapshot built
from the stored `pitch` and `roll` and the formulas at clock value `simTime`.
`sin` is `std::sin` on `double`; `timeStr` is the formatted wall-clock time. -/
def displaySnapshot (sin : ℚ → ℚ) (timeStr : String) (pitch roll simTime : ℚ) : Snapshot :=
  let speed := f32 (dadd (f32 70) (dmul (f32 30) (sin (dmul simTime (f64 (4 / 10))))))
  let heading := f32 (fmod (dmul simTime (f64 10)) (f64 360))
  let batteryState := f32 (dadd (f32 (42 / 10)) (dmul (f32 (2 / 10)) (sin (dmul simTime 5))))
  let propQuantity : ℤ := 4
  let batteryLevel :=
    f32 (dadd (f32 (56 / 100)) (dmul (f32 (1 / 10)) (sin (dmul simTime (f64 (2 / 100))))))
  let rpm : List ℤ := [
    truncToInt (dadd 2500 (dmul (f32 500) (sin (dmul simTime (f64 (2 / 10)))))),
    truncToInt (dadd 2500 (dmul (f32 400) (sin (dmul simTime (f64 (25 / 100)))))),
    truncToInt (dadd 2500 (dmul (f32 450) (sin (dmul simTime (f64 (27 / 100)))))),
    truncToInt (dadd 2500 (dmul (f32 480) (sin (dmul simTime (f64 (29 / 100))))))]
  let QNH := f32 (dadd (f32 (2992 / 100)) (dmul (f32 (1 / 10)) (sin (dmul simTime (f64 (3 / 10))))))
  let altitude := f32 (dadd (f32 8500) (dmul (f32 100) (sin (dmul simTime (f64 (2 / 10))))))
  let OAT := f32 15
  { pitch := pitch, roll := roll, altitude := altitude, speed := speed, heading := heading,
    QNH := QNH, flightMode := "MANUAL - MPU6050 Active", timeStr := timeStr, rpm := rpm,
    batteryState := batteryState, batteryLevel := batteryLevel,
    propQuantity := propQuantity, OAT := OAT }

/-- `PFDMainWindow::updateDisplay` (the live-mode tick): the new state and the
snapshot handed to `setAttitude`. The three `setText` calls that follow only
format members already set here and are not modelled. -/
def updateDisplay (sin : ℚ → ℚ) (timeStr : String) (st : State) : State × Snapshot :=
  let simTime := advanceClock st.simTime
  let snap := displaySnapshot sin timeStr st.pitch st.roll simTime
  ({ st with simTime := simTime, speed := snap.speed, heading := snap.heading,
             altitude := snap.altitude }, snap)

/-- The body of `updateSimulation` after the clock increment: the fully
synthetic snapshot at clock value `simTime`. -/
def simulationSnapshot (sin : ℚ → ℚ) (timeStr : String) (simTime : ℚ) : Snapshot :=
  let pitch := f32 (dmul (f32 90) (sin (dmul simTime (f64 (2 / 10)))))
  let roll := f32 (dmul (f32 180) (sin (dmul simTime (f64 (5 / 10)))))
  let speed := f32 (dadd (f32 70) (dmul (f32 230) (sin (dmul simTime (f64 (4 / 10))))))
  let heading := f32 (fmod (dmul simTime (f64 10)) (f64 360))
  let batteryState := f32 (dadd (f32 (42 / 10)) (dmul (f32 1) (sin (dmul simTime 5))))
  let propQuantity : ℤ := 4
  let batteryLevel :=
    f32 (dadd (f32 (56 / 100)) (dmul (f32 1) (sin (dmul simTime (f64 (2 / 100))))))
  let rpm : List ℤ := [
    truncToInt (dadd 2500 (dmul (f32 1560) (sin (dmul simTime (f64 (2 / 10)))))),
    truncToInt (dadd 2500 (dmul (f32 1210) (sin (dmul simTime (f64 (25 / 100)))))),
    truncToInt (dadd 2500 (dmul (f32 1543) (sin (dmul simTime (f64 (27 / 100)))))),
    truncToInt (dadd 2500 (dmul (f32 1673) (sin (dmul simTime (f64 (29 / 100))))))]
  let QNH := f32 (dadd (f32 (2992 / 100)) (dmul (f32 1) (sin (dmul simTime (f64 (3 / 10))))))
  let altitude := f32 (dadd (f32 8500) (dmul (f32 1000) (sin (dmul simTime (f64 (2 / 10))))))
  let OAT := f32 8
  { pitch := pitch, roll := roll, altitude := altitude, speed := speed, heading := heading,
    QNH := QNH, flightMode := "ATLC Takeoff Active", timeStr := timeStr, rpm := rpm,
    batteryState := batteryState, batteryLevel := batteryLevel,
    propQuantity := propQuantity, OAT := OAT }

/-- `PFDMainWindow::updateSimulation` (the simulated-mode tick): the new state
and the snapshot handed to `setAttitude`; the `setText` calls are not modelled. -/
def updateSimulation (sin : ℚ → ℚ) (timeStr : String) (st : State) : State × Snapshot :=
  let simTime := advanceClock st.simTime
  let snap := simulationSnapshot sin timeStr simTime
  ({ st with simTime := simTime, pitch := snap.pitch, roll := snap.roll, speed := snap.speed,
             heading := snap.heading, altitude := snap.altitude }, snap)

/-- The data members as the constructor leaves them: empty buffer,
`simTime = 0.02`, default attitude and instrument values. -/
def initialState : State :=
  { serialBuffer := [], simTime := f64 (2 / 100), pitch := f32 0, roll := f32 0,
    temperature := f32 25, altitude := f32 8500, speed := f32 70, heading := f32 0 }

/-- The two timer slots: `updateDisplay` in live mode, `updateSimulation` in
simulated mode. -/
inductive SourceMode where
  | live
  | simulated
deriving DecidableEq

/-- One timer tick in the given mode. -/
def tick (mode : SourceMode) (sin : ℚ → ℚ) (timeStr : String) (st : State) : State × Snapshot :=
  match mode with
  | SourceMode.live => updateDisplay sin timeStr st
  | SourceMode.simulated => updateSimulation sin timeStr st

/-- The state after `n` successive ticks; `times i` is the wall-clock string
seen by tick `i`. -/
def runTicks (mode : SourceMode) (sin : ℚ → ℚ) (times : Nat → String) : Nat → State → State
  | 0, st => st
  | n + 1, st => (tick mode sin (times (n + 1)) (runTicks mode sin times n st)).1


/-! ## Lemmas: byte-array operations -/

theorem contains_iff (b : QByteArray) (c : Char) : contains b c = true ↔ c ∈ b := by
  simp [contains]

theorem indexOf_lt_length {b : QByteArray} {c : Char} (h : c ∈ b) : indexOf b c < b.length := by
  induction b with
  | nil => simp at h
  | cons x xs ih =>
    by_cases hx : x = c
    · simp [indexOf, hx]
    · have hc : c ∈ xs := by
        rcases List.mem_cons.mp h with h1 | h1
        · exact absurd h1.symm hx
        · exact h1
      simp [indexOf, hx, ih hc]

theorem not_mem_take_indexOf (b : QByteArray) (c : Char) : c ∉ b.take (indexOf b c) := by
  induction b with
  | nil => simp
  | cons x xs ih =>
    by_cases hx : x = c
    · simp [indexOf, hx]
    · simp only [indexOf, hx, if_false, List.take_succ_cons, List.mem_cons, not_or]
      exact ⟨fun h => hx h.symm, ih⟩

theorem eq_take_cons_drop {b : QByteArray} {c : Char} (h : c ∈ b) :
    b = b.take (indexOf b c) ++ c :: b.drop (indexOf b c + 1) := by
  induction b with
  | nil => simp at h
  | cons x xs ih =>
    by_cases hx : x = c
    · simp [indexOf, hx]
    · have hc : c ∈ xs := by
        rcases List.mem_cons.mp h with h1 | h1
        · exact absurd h1.symm hx
        · exact h1
      simp only [indexOf, hx, if_false, List.take_succ_cons, List.drop_succ_cons, List.cons_append]
      exact congrArg _ (ih hc)

theorem indexOf_append {x : QByteArray} {c : Char} (h : c ∈ x) (y : QByteArray) :
    indexOf (x ++ y) c = indexOf x c := by
  induction x with
  | nil => simp at h
  | cons a xs ih =>
    by_cases hx : a = c
    · simp [indexOf, hx]
    · have hc : c ∈ xs := by
        rcases List.mem_cons.mp h with h1 | h1
        · exact absurd h1.symm hx
        · exact h1
      simp [indexOf, hx, ih hc]

theorem remove_zero (b : QByteArray) (n : Nat) : remove b 0 n = b.drop n := by
  simp [remove]

theorem length_remove_lt {b : QByteArray} (h : '\n' ∈ b) :
    (remove b 0 (indexOf b '\n' + 1)).length < b.length := by
  have := indexOf_lt_length h
  rw [remove_zero, List.length_drop]
  omega

/-! ## Lemmas: state updates -/

theorem setBuffer_serialBuffer (st : State) (b : QByteArray) :
    (st.setBuffer b).serialBuffer = b := rfl

theorem setBuffer_setBuffer (st : State) (a b : QByteArray) :
    (st.setBuffer a).setBuffer b = st.setBuffer b := rfl

theorem setBuffer_self (st : State) : st.setBuffer st.serialBuffer = st := rfl

theorem parseSerialLine_serialBuffer (tf : QString → ℚ × Bool) (l : QString) (st : State) :
    (parseSerialLine tf l st).1.serialBuffer = st.serialBuffer := by
  unfold parseSerialLine
  dsimp only
  split_ifs <;> rfl

theorem parseSerialLine_simTime (tf : QString → ℚ × Bool) (l : QString) (st : State) :
    (parseSerialLine tf l st).1.simTime = st.simTime := by
  unfold parseSerialLine
  dsimp only
  split_ifs <;> rfl

theorem parseSerialLine_setBuffer (tf : QString → ℚ × Bool) (l : QString) (st : State)
    (b : QByteArray) :
    (parseSerialLine tf l (st.setBuffer b)).1 = (parseSerialLine tf l st).1.setBuffer b := by
  unfold parseSerialLine
  dsimp only
  split_ifs <;> rfl

/-! ## Lemmas: the extraction loop -/

theorem processLines_no_newline (dec : QByteArray → QString) (tf : QString → ℚ × Bool) (n : Nat) (st : State)
    (h : '\n' ∉ st.serialBuffer) : processLines dec tf n st = (st, []) := by
  cases n with
  | zero => rfl
  | succ n =>
    have hc : contains st.serialBuffer '\n' = false := by
      rw [← Bool.not_eq_true, contains_iff]; exact h
    simp [processLines, hc]

/-- Fuel adequacy: any two fuel values not below the buffer length give the
same run, so the loop modelled by `processLines` always runs to completion. -/
theorem processLines_fuel (dec : QByteArray → QString) (tf : QString → ℚ × Bool) :
    ∀ (n m : Nat) (st : State), st.serialBuffer.length ≤ n → st.serialBuffer.length ≤ m →
      processLines dec tf n st = processLines dec tf m st := by
  intro n
  induction n with
  | zero =>
    intro m st hn _
    have hb : st.serialBuffer = [] := List.length_eq_zero.mp (Nat.le_zero.mp hn)
    rw [processLines_no_newline dec tf 0 st (by simp [hb]),
      processLines_no_newline dec tf m st (by simp [hb])]
  | succ n ih =>
    intro m st hn hm
    by_cases hc : '\n' ∈ st.serialBuffer
    · cases m with
      | zero =>
        have hb : st.serialBuffer = [] := List.length_eq_zero.mp (Nat.le_zero.mp hm)
        rw [hb] at hc
        simp at hc
      | succ m =>
        have hlt := length_remove_lt hc
        have hct : contains st.serialBuffer '\n' = true := (contains_iff _ _).mpr hc
        simp only [processLines, hct, if_true]
        split_ifs with hl
        · rw [ih m _ (by rw [parseSerialLine_serialBuffer, setBuffer_serialBuffer]; omega)
            (by rw [parseSerialLine_serialBuffer, setBuffer_serialBuffer]; omega)]
        · exact ih m _ (by rw [setBuffer_serialBuffer]; omega)
            (by rw [setBuffer_serialBuffer]; omega)
    · rw [processLines_no_newline dec tf _ st hc, processLines_no_newline dec tf _ st hc]

/-- Running the loop on `x ++ y` is running it on `x` and then on what it left,
extended by `y`. -/
theorem processLines_append (dec : QByteArray → QString) (tf : QString → ℚ × Bool) :
    ∀ (n : Nat) (st : State) (x y : QByteArray) (m k : Nat),
      x.length ≤ n → (x ++ y).length ≤ m →
      ((processLines dec tf n (st.setBuffer x)).1.serialBuffer ++ y).length ≤ k →
      processLines dec tf m (st.setBuffer (x ++ y)) =
        ((processLines dec tf k ((processLines dec tf n (st.setBuffer x)).1.setBuffer
            ((processLines dec tf n (st.setBuffer x)).1.serialBuffer ++ y))).1,
         (processLines dec tf n (st.setBuffer x)).2 ++
          (processLines dec tf k ((processLines dec tf n (st.setBuffer x)).1.setBuffer
            ((processLines dec tf n (st.setBuffer x)).1.serialBuffer ++ y))).2) := by
  intro n
  induction n with
  | zero =>
    intro st x y m k hn hm hk
    have hx : x = [] := List.length_eq_zero.mp (Nat.le_zero.mp hn)
    subst hx
    simp only [processLines, setBuffer_serialBuffer, setBuffer_setBuffer, List.nil_append]
      at hk hm ⊢
    exact processLines_fuel dec tf m k _ hm hk
  | succ n ih =>
    intro st x y m k hn hm hk
    by_cases hc : '\n' ∈ x
    · have hi := indexOf_lt_length hc
      have hcy : '\n' ∈ x ++ y := List.mem_append_left y hc
      have hct : contains x '\n' = true := (contains_iff _ _).mpr hc
      have hcty : contains (x ++ y) '\n' = true := (contains_iff _ _).mpr hcy
      have htake : left (x ++ y) (indexOf x '\n') = left x (indexOf x '\n') := by
        simp only [left]
        exact List.take_append_of_le_length (Nat.le_of_lt hi)
      have hdrop : remove (x ++ y) 0 (indexOf x '\n' + 1) =
          remove x 0 (indexOf x '\n' + 1) ++ y := by
        rw [remove_zero, remove_zero]
        exact List.drop_append_of_le_length hi
      have hlen : (remove x 0 (indexOf x '\n' + 1)).length ≤ n := by
        have := length_remove_lt hc
        omega
      cases m with
      | zero =>
        simp only [List.length_append] at hm
        omega
      | succ m =>
        have hm2 : (remove x 0 (indexOf x '\n' + 1) ++ y).length ≤ m := by
          have := length_remove_lt hc
          simp only [List.length_append] at hm ⊢
          omega
        simp only [processLines, setBuffer_serialBuffer, setBuffer_setBuffer, hct, hcty, if_true,
          indexOf_append hc, htake, hdrop, parseSerialLine_setBuffer] at hk ⊢
        by_cases hl : (dec (trimmed (left x (indexOf x '\n')))).isEmpty = true
        · simp only [hl, Bool.not_true, Bool.false_eq_true, if_false] at hk ⊢
          exact ih st _ y m k hlen hm2 hk
        · simp only [hl, Bool.not_false, if_true] at hk ⊢
          have := ih (parseSerialLine tf (dec (trimmed (left x (indexOf x '\n')))) st).1 _ y m k
            hlen hm2 hk
          simp only [this, List.cons_append]
    · have h1 : processLines dec tf (n + 1) (st.setBuffer x) = (st.setBuffer x, []) :=
        processLines_no_newline dec tf _ _ hc
      rw [h1] at hk
      rw [h1]
      simp only [setBuffer_serialBuffer, setBuffer_setBuffer, List.nil_append] at hk ⊢
      exact processLines_fuel dec tf m k _ hm hk

theorem readSerialData_append (dec : QByteArray → QString) (tf : QString → ℚ × Bool) (d1 d2 : QByteArray) (st : State) :
    readSerialData dec tf (d1 ++ d2) st =
      ((readSerialData dec tf d2 (readSerialData dec tf d1 st).1).1,
       (readSerialData dec tf d1 st).2 ++ (readSerialData dec tf d2 (readSerialData dec tf d1 st).1).2) := by
  simp only [readSerialData, setBuffer_serialBuffer]
  rw [← List.append_assoc]
  have h := processLines_append dec tf (st.serialBuffer ++ d1).length st (st.serialBuffer ++ d1) d2
    (st.serialBuffer ++ d1 ++ d2).length
    ((processLines dec tf (st.serialBuffer ++ d1).length
      (st.setBuffer (st.serialBuffer ++ d1))).1.serialBuffer ++ d2).length
    (Nat.le_refl _) (Nat.le_refl _) (Nat.le_refl _)
  exact h

theorem feedChunks_cons (dec : QByteArray → QString) (tf : QString → ℚ × Bool) :
    ∀ (ds : List QByteArray) (d : QByteArray) (st : State),
      feedChunks dec tf (d :: ds) st = readSerialData dec tf (d ++ ds.flatten) st := by
  intro ds
  induction ds with
  | nil =>
    intro d st
    simp [feedChunks]
  | cons e es ih =>
    intro d st
    rw [List.flatten_cons, readSerialData_append]
    have h2 := ih e (readSerialData dec tf d st).1
    show ((feedChunks dec tf (e :: es) (readSerialData dec tf d st).1).1,
      (readSerialData dec tf d st).2 ++ (feedChunks dec tf (e :: es) (readSerialData dec tf d st).1).2) = _
    rw [h2]


/-! ## Lemmas: trimming -/

theorem trimmed_initial (b : QByteArray) : trimmed b <+: b.dropWhile isSpace :=
  List.rdropWhile_prefix isSpace (b.dropWhile isSpace)

theorem mem_of_mem_trimmed {b : QByteArray} {c : Char} (h : c ∈ trimmed b) : c ∈ b :=
  List.dropWhile_subset isSpace ((trimmed_initial b).subset h)

theorem trimmed_head_not_space (b : QByteArray) (c : Char) (h : (trimmed b).head? = some c) :
    isSpace c = false := by
  obtain ⟨t, ht⟩ := trimmed_initial b
  cases hb : trimmed b with
  | nil => rw [hb] at h; simp at h
  | cons a as =>
    rw [hb] at h ht
    have hc : a = c := by simpa using h
    have h1 := List.head?_dropWhile_not isSpace b
    rw [← ht] at h1
    simp only [List.cons_append, List.head?_cons] at h1
    rw [← hc]
    simpa using h1

theorem trimmed_last_not_space (b : QByteArray) (c : Char) (h : (trimmed b).getLast? = some c) :
    isSpace c = false := by
  have hne : List.rdropWhile isSpace (b.dropWhile isSpace) ≠ [] := by
    intro h0
    have : trimmed b = [] := h0
    rw [this] at h
    simp at h
  have h1 := List.rdropWhile_last_not isSpace (b.dropWhile isSpace) hne
  have h2 : (trimmed b).getLast? =
      some ((List.rdropWhile isSpace (b.dropWhile isSpace)).getLast hne) :=
    List.getLast?_eq_getLast _ hne
  rw [h2] at h
  have hc : (List.rdropWhile isSpace (b.dropWhile isSpace)).getLast hne = c := by simpa using h
  rw [hc] at h1
  simpa using h1

/-! ## Lemmas: what the loop delivers and leaves -/

/-- The loop splits the buffer into its newline-terminated segments `segs` and
the unterminated remainder `rest`; it delivers the decoded trimmed segments
that are not empty and leaves the remainder. -/
theorem processLines_segments (dec : QByteArray → QString) (tf : QString → ℚ × Bool) :
    ∀ (n : Nat) (st : State), st.serialBuffer.length ≤ n →
      ∃ (segs : List QByteArray) (rest : QByteArray),
        st.serialBuffer = (segs.map (fun s => s ++ ['\n'])).flatten ++ rest ∧
        (∀ s ∈ segs, '\n' ∉ s) ∧ '\n' ∉ rest ∧
        (processLines dec tf n st).2 = (segs.map (fun s => dec (trimmed s))).filter (fun l => !l.isEmpty) ∧
        (processLines dec tf n st).1.serialBuffer = rest := by
  intro n
  induction n with
  | zero =>
    intro st hn
    have hb : st.serialBuffer = [] := List.length_eq_zero.mp (Nat.le_zero.mp hn)
    exact ⟨[], [], by simp [hb], by simp, by simp, by simp [processLines],
      by simp [processLines, hb]⟩
  | succ n ih =>
    intro st hn
    by_cases hc : '\n' ∈ st.serialBuffer
    · have hlt := length_remove_lt hc
      have hct : contains st.serialBuffer '\n' = true := (contains_iff _ _).mpr hc
      have hsplit := eq_take_cons_drop hc
      have hno := not_mem_take_indexOf st.serialBuffer '\n'
      by_cases hl : (dec (trimmed (left st.serialBuffer (indexOf st.serialBuffer '\n')))).isEmpty = true
      · obtain ⟨segs, rest, h1, h2, h3, h4, h5⟩ :=
          ih (st.setBuffer (remove st.serialBuffer 0 (indexOf st.serialBuffer '\n' + 1)))
            (by rw [setBuffer_serialBuffer]; omega)
        rw [setBuffer_serialBuffer, remove_zero] at h1
        refine ⟨st.serialBuffer.take (indexOf st.serialBuffer '\n') :: segs, rest, ?_, ?_, h3,
          ?_, ?_⟩
        · rw [List.map_cons, List.flatten_cons, List.append_assoc, ← h1]
          simpa using hsplit
        · intro s hs
          rcases List.mem_cons.mp hs with h | h
          · rw [h]; exact hno
          · exact h2 s h
        · simp only [processLines, hct, if_true, hl, Bool.not_true, Bool.false_eq_true, if_false]
          rw [h4, List.map_cons, List.filter_cons]
          have : (!(dec (trimmed (List.take (indexOf st.serialBuffer '\n') st.serialBuffer))).isEmpty)
              = false := by
            simpa [left] using hl
          simp [this]
        · simp only [processLines, hct, if_true, hl, Bool.not_true, Bool.false_eq_true, if_false]
          exact h5
      · obtain ⟨segs, rest, h1, h2, h3, h4, h5⟩ :=
          ih (parseSerialLine tf (dec (trimmed (left st.serialBuffer (indexOf st.serialBuffer '\n'))))
              (st.setBuffer (remove st.serialBuffer 0 (indexOf st.serialBuffer '\n' + 1)))).1
            (by rw [parseSerialLine_serialBuffer, setBuffer_serialBuffer]; omega)
        rw [parseSerialLine_serialBuffer, setBuffer_serialBuffer, remove_zero] at h1
        refine ⟨st.serialBuffer.take (indexOf st.serialBuffer '\n') :: segs, rest, ?_, ?_, h3,
          ?_, ?_⟩
        · rw [List.map_cons, List.flatten_cons, List.append_assoc, ← h1]
          simpa using hsplit
        · intro s hs
          rcases List.mem_cons.mp hs with h | h
          · rw [h]; exact hno
          · exact h2 s h
        · simp only [processLines, hct, if_true, hl, Bool.not_false]
          rw [h4, List.map_cons, List.filter_cons]
          have : (!(dec (trimmed (List.take (indexOf st.serialBuffer '\n') st.serialBuffer))).isEmpty)
              = true := by
            simpa [left] using hl
          simp [this, left]
        · simp only [processLines, hct, if_true, hl, Bool.not_false]
          exact h5
    · refine ⟨[], st.serialBuffer, by simp, by simp, hc, ?_, ?_⟩
      · rw [processLines_no_newline dec tf _ st hc]; simp
      · rw [processLines_no_newline dec tf _ st hc]


/-! ## Lemmas: the reference decoder on ASCII input -/

theorem utf8DecodeAux_ascii : ∀ b : QByteArray, (∀ c ∈ b, c.toNat < 128) →
    utf8DecodeAux 0 b = b := by
  intro b
  induction b with
  | nil =>
    intro _
    rfl
  | cons c cs ih =>
    intro h
    have hc : c.toNat < 128 := h c (List.mem_cons_self c cs)
    have hcs : ∀ x ∈ cs, x.toNat < 128 := fun x hx => h x (List.mem_cons_of_mem c hx)
    simp only [utf8DecodeAux, hc, if_true, ih hcs]

theorem isPlainAscii_iff (b : QByteArray) :
    isPlainAscii b = true ↔ ∀ c ∈ b, 0 < c.toNat ∧ c.toNat < 128 := by
  simp [isPlainAscii, List.all_eq_true]

/-- On ASCII input without NUL the reference decoder is the identity. -/
theorem utf8Decode_plain (b : QByteArray) (h : isPlainAscii b = true) : utf8Decode b = b := by
  have hall := (isPlainAscii_iff b).mp h
  have hlt : ∀ c ∈ b, c.toNat < 128 := fun c hc => (hall c hc).2
  unfold utf8Decode
  split
  · rename_i b0 b1 b2 rest
    have h0 : b0.toNat < 128 := hlt b0 (List.mem_cons_self _ _)
    have hne : (b0.toNat == 0xEF) = false := by
      rw [beq_eq_false_iff_ne]
      omega
    simp only [hne, Bool.false_and, Bool.false_eq_true, if_false]
    exact utf8DecodeAux_ascii _ hlt
  · exact utf8DecodeAux_ascii _ hlt

theorem isPlainAscii_trimmed (b : QByteArray) (h : isPlainAscii b = true) :
    isPlainAscii (trimmed b) = true := by
  rw [isPlainAscii_iff] at h ⊢
  intro c hc
  exact h c (mem_of_mem_trimmed hc)

/-! ## Frame decoder -/

/-- C1 (chunking invariance). Starting from the same state, feeding a byte
sequence cut into consecutive chunks, one `readSerialData` call per chunk,
gives the same final state (residual buffer and stored attitude included) and
hands `parseSerialLine` the same lines in the same order as feeding the
concatenation in a single call, for every text decoder and number parser. The cut has at least one chunk; the cut of the
empty sequence into no chunk at all is covered when the buffer is at rest
(holds no newline). -/
theorem chunking_invariance (fromUtf8 : QByteArray → QString) (toFloat : QString → ℚ × Bool)
    (chunks : List QByteArray) (st : State) (h : chunks ≠ [] ∨ '\n' ∉ st.serialBuffer) :
    feedChunks fromUtf8 toFloat chunks st =
      readSerialData fromUtf8 toFloat chunks.flatten st := by
  cases chunks with
  | nil =>
    have hb : '\n' ∉ st.serialBuffer := by
      rcases h with h | h
      · exact absurd rfl h
      · exact h
    simp only [feedChunks, List.flatten_nil, readSerialData, List.append_nil, setBuffer_self]
    exact (processLines_no_newline fromUtf8 toFloat _ st hb).symm
  | cons d ds =>
    rw [feedChunks_cons, List.flatten_cons]

theorem chunking_invariance_witness :
    (["1.5,-2".toList, ".25\n 3,".toList, "4 \r\n\n7".toList] ≠ [] ∨
        '\n' ∉ initialState.serialBuffer) ∧
      feedChunks utf8Decode toFloatDecimal
          ["1.5,-2".toList, ".25\n 3,".toList, "4 \r\n\n7".toList] initialState =
        readSerialData utf8Decode toFloatDecimal
          (["1.5,-2".toList, ".25\n 3,".toList, "4 \r\n\n7".toList]).flatten initialState :=
  ⟨Or.inl (by decide),
    chunking_invariance utf8Decode toFloatDecimal _ initialState (Or.inl (by decide))⟩

/-- Counterexample to C4 as stated. The stream `bomStream` has two
newline-terminated segments, neither of which trims to empty. The conversion
to `QString` skips the byte-order mark, so the only line handed to
`parseSerialLine` is " 1,2": it is not the trimmed first segment, it starts
with a space, and the second segment is dropped although it does not trim to
empty. -/
theorem bom_segments_not_delivered_as_trimmed :
    bomStream =
      (([utf8Bom ++ " 1,2".toList, utf8Bom]).map (fun s => s ++ ['\n'])).flatten ++ [] ∧
    '\n' ∉ utf8Bom ++ " 1,2".toList ∧ '\n' ∉ utf8Bom ∧
    (([utf8Bom ++ " 1,2".toList, utf8Bom]).map trimmed).filter (fun l => !l.isEmpty) =
      [utf8Bom ++ " 1,2".toList, utf8Bom] ∧
    (readSerialData utf8Decode toFloatDecimal bomStream initialState).2 = [" 1,2".toList] ∧
    (readSerialData utf8Decode toFloatDecimal bomStream initialState).2 ≠
      (([utf8Bom ++ " 1,2".toList, utf8Bom]).map trimmed).filter (fun l => !l.isEmpty) ∧
    (∃ l ∈ (readSerialData utf8Decode toFloatDecimal bomStream initialState).2,
      ∃ c, l.head? = some c ∧ isSpace c = true) := by
  have hd : (readSerialData utf8Decode toFloatDecimal bomStream initialState).2 =
      [" 1,2".toList] := by decide!
  refine ⟨by decide, by decide, by decide, by decide, hd, ?_, ?_⟩
  · rw [hd]
    decide
  · rw [hd]
    exact ⟨" 1,2".toList, List.mem_singleton.mpr rfl, ' ', rfl, by decide⟩

/-- C4 (what the frame decoder delivers), as amended. Write the buffer followed
by the received bytes as its newline-terminated segments `segs` (each free of
newlines) followed by the unterminated remainder `rest`. The lines handed to
`parseSerialLine` are exactly, in order, the `QString` decodings of the
trimmed segments, with the ones that decode to empty dropped; the remainder
contributes nothing and no delivered line is empty. When the decoder returns
ASCII text without NUL unchanged (as `QString::fromUtf8` does) and the
segments are such text, the delivered lines are exactly the trimmed segments
that are not empty, and each starts and ends with a non-whitespace character
and contains no newline. -/
theorem delivered_lines (fromUtf8 : QByteArray → QString) (toFloat : QString → ℚ × Bool)
    (data : QByteArray) (st : State) :
    ∃ (segs : List QByteArray) (rest : QByteArray),
      st.serialBuffer ++ data = (segs.map (fun s => s ++ ['\n'])).flatten ++ rest ∧
      (∀ s ∈ segs, '\n' ∉ s) ∧ '\n' ∉ rest ∧
      (readSerialData fromUtf8 toFloat data st).2 =
        (segs.map (fun s => fromUtf8 (trimmed s))).filter (fun l => !l.isEmpty) ∧
      (∀ l ∈ (readSerialData fromUtf8 toFloat data st).2, l ≠ []) ∧
      ((∀ b, isPlainAscii b = true → fromUtf8 b = b) →
        (∀ s ∈ segs, isPlainAscii s = true) →
        (readSerialData fromUtf8 toFloat data st).2 =
          (segs.map trimmed).filter (fun l => !l.isEmpty) ∧
        (∀ l ∈ (readSerialData fromUtf8 toFloat data st).2,
          (∀ c, l.head? = some c → isSpace c = false) ∧
          (∀ c, l.getLast? = some c → isSpace c = false) ∧ '\n' ∉ l)) := by
  obtain ⟨segs, rest, h1, h2, h3, h4, _⟩ :=
    processLines_segments fromUtf8 toFloat (st.serialBuffer ++ data).length
      (st.setBuffer (st.serialBuffer ++ data)) (Nat.le_refl _)
  rw [setBuffer_serialBuffer] at h1
  have h4r : (readSerialData fromUtf8 toFloat data st).2 =
      (segs.map (fun s => fromUtf8 (trimmed s))).filter (fun l => !l.isEmpty) := h4
  refine ⟨segs, rest, h1, h2, h3, h4r, ?_, ?_⟩
  · intro l hl
    rw [h4r] at hl
    obtain ⟨_, hne⟩ := List.mem_filter.mp hl
    intro h0
    rw [h0] at hne
    simp at hne
  · intro hdec hplain
    have hmap : segs.map (fun s => fromUtf8 (trimmed s)) = segs.map trimmed := by
      apply List.map_congr_left
      intro s hs
      exact hdec _ (isPlainAscii_trimmed s (hplain s hs))
    have heq : (readSerialData fromUtf8 toFloat data st).2 =
        (segs.map trimmed).filter (fun l => !l.isEmpty) := by
      rw [h4r, hmap]
    refine ⟨heq, ?_⟩
    intro l hl
    rw [heq] at hl
    obtain ⟨hm, _⟩ := List.mem_filter.mp hl
    obtain ⟨s, hs, rfl⟩ := List.mem_map.mp hm
    exact ⟨trimmed_head_not_space s, trimmed_last_not_space s,
      fun hn => h2 s hs (mem_of_mem_trimmed hn)⟩

theorem delivered_lines_witness :
    (∀ b, isPlainAscii b = true → utf8Decode b = b) ∧
    isPlainAscii (initialState.serialBuffer ++ " 1,2 \r\n\n x\n1,".toList) = true ∧
    (readSerialData utf8Decode toFloatDecimal " 1,2 \r\n\n x\n1,".toList initialState).2 =
      ["1,2".toList, "x".toList] ∧
    (∃ (segs : List QByteArray) (rest : QByteArray),
      initialState.serialBuffer ++ " 1,2 \r\n\n x\n1,".toList =
        (segs.map (fun s => s ++ ['\n'])).flatten ++ rest ∧
      (∀ s ∈ segs, isPlainAscii s = true) ∧
      (readSerialData utf8Decode toFloatDecimal " 1,2 \r\n\n x\n1,".toList initialState).2 =
        (segs.map trimmed).filter (fun l => !l.isEmpty) ∧
      (∀ l ∈ (readSerialData utf8Decode toFloatDecimal " 1,2 \r\n\n x\n1,".toList
          initialState).2,
        (∀ c, l.head? = some c → isSpace c = false) ∧
        (∀ c, l.getLast? = some c → isSpace c = false) ∧ '\n' ∉ l)) := by
  obtain ⟨segs, rest, h1, _, _, _, _, h6⟩ :=
    delivered_lines utf8Decode toFloatDecimal " 1,2 \r\n\n x\n1,".toList initialState
  have hall : isPlainAscii (initialState.serialBuffer ++ " 1,2 \r\n\n x\n1,".toList) = true := by
    decide
  have hp : ∀ s ∈ segs, isPlainAscii s = true := by
    intro s hs
    rw [isPlainAscii_iff]
    intro c hc
    have hmem : c ∈ initialState.serialBuffer ++ " 1,2 \r\n\n x\n1,".toList := by
      rw [h1]
      apply List.mem_append_left
      rw [List.mem_flatten]
      exact ⟨s ++ ['\n'], List.mem_map.mpr ⟨s, hs, rfl⟩, List.mem_append_left _ hc⟩
    exact (isPlainAscii_iff _).mp hall c hmem
  have h7 := h6 utf8Decode_plain hp
  exact ⟨utf8Decode_plain, hall, by decide!, segs, rest, h1, hp, h7.1, h7.2⟩

/-- C9 (buffer invariant at rest). `readSerialData` runs its loop to completion
(more fuel changes nothing) and leaves a buffer without any newline: the loop
guard is false on exit. The buffer left is the part of (prior buffer followed
by the received bytes) after its last newline, or all of it when it holds no
newline. -/
theorem buffer_at_rest (fromUtf8 : QByteArray → QString) (toFloat : QString → ℚ × Bool)
    (data : QByteArray) (st : State) :
    contains (readSerialData fromUtf8 toFloat data st).1.serialBuffer '\n' = false ∧
    '\n' ∉ (readSerialData fromUtf8 toFloat data st).1.serialBuffer ∧
    ((∃ pre, st.serialBuffer ++ data =
          pre ++ '\n' :: (readSerialData fromUtf8 toFloat data st).1.serialBuffer) ∨
      ('\n' ∉ st.serialBuffer ++ data ∧
        (readSerialData fromUtf8 toFloat data st).1.serialBuffer = st.serialBuffer ++ data)) ∧
    (∀ fuel, (st.serialBuffer ++ data).length ≤ fuel →
      processLines fromUtf8 toFloat fuel (st.setBuffer (st.serialBuffer ++ data)) =
        readSerialData fromUtf8 toFloat data st) := by
  obtain ⟨segs, rest, h1, h2, h3, _, h5⟩ :=
    processLines_segments fromUtf8 toFloat (st.serialBuffer ++ data).length
      (st.setBuffer (st.serialBuffer ++ data)) (Nat.le_refl _)
  rw [setBuffer_serialBuffer] at h1
  have hr : (readSerialData fromUtf8 toFloat data st).1.serialBuffer = rest := h5
  rw [hr]
  refine ⟨?_, h3, ?_, ?_⟩
  · rw [← Bool.not_eq_true, contains_iff]; exact h3
  · rcases List.eq_nil_or_concat segs with h0 | ⟨init, s, h0⟩
    · right
      subst h0
      simp only [List.map_nil, List.flatten_nil, List.nil_append] at h1
      rw [h1]
      exact ⟨h3, rfl⟩
    · left
      subst h0
      refine ⟨(init.map (fun s => s ++ ['\n'])).flatten ++ s, ?_⟩
      rw [h1]
      simp
  · intro fuel hf
    exact processLines_fuel fromUtf8 toFloat fuel _ _ (by rw [setBuffer_serialBuffer]; exact hf)
      (by rw [setBuffer_serialBuffer])


/-! ## Attitude parser -/

theorem parseSerialLine_of_fields (tf : QString → ℚ × Bool) (line l2 : QString) (st : State)
    (h2 : 2 ≤ (split ',' line).length)
    (ht : (split ',' l2).take 2 = (split ',' line).take 2) :
    parseSerialLine tf l2 st = parseSerialLine tf line st := by
  unfold parseSerialLine
  dsimp only
  rcases hs : split ',' line with _ | ⟨a, _ | ⟨b, t⟩⟩
  · rw [hs] at h2; simp at h2
  · rw [hs] at h2; simp at h2
  · rw [hs] at ht
    rcases hs2 : split ',' l2 with _ | ⟨a2, _ | ⟨b2, t2⟩⟩
    · rw [hs2] at ht; simp at ht
    · rw [hs2] at ht; simp at ht
    · rw [hs2] at ht
      simp only [List.take_succ_cons, List.take_zero, List.cons.injEq, and_true] at ht
      obtain ⟨ha, hb⟩ := ht
      subst ha
      subst hb
      simp

theorem parseSerialLine_few (tf : QString → ℚ × Bool) (line : QString) (st : State)
    (h : (split ',' line).length < 2) :
    parseSerialLine tf line st = (st, ParseOutcome.invalidFormat) := by
  have h2 : ¬ 2 ≤ (split ',' line).length := by omega
  simp only [parseSerialLine, h2, if_false]

theorem parseSerialLine_bad (tf : QString → ℚ × Bool) (line : QString) (st : State)
    (h : 2 ≤ (split ',' line).length)
    (hbad : (tf ((split ',' line).getD 0 [])).2 = false ∨
      (tf ((split ',' line).getD 1 [])).2 = false) :
    parseSerialLine tf line st = (st, ParseOutcome.failedToParse) := by
  have hb : ((tf ((split ',' line).getD 0 [])).2 && (tf ((split ',' line).getD 1 [])).2)
      = false := by
    rcases hbad with h0 | h1
    · rw [h0]; rfl
    · rw [h1]; exact Bool.and_false _
  simp only [parseSerialLine, h, if_true, hb, Bool.false_eq_true, if_false]

theorem parseSerialLine_good (tf : QString → ℚ × Bool) (line : QString) (st : State)
    (h : 2 ≤ (split ',' line).length)
    (h0 : (tf ((split ',' line).getD 0 [])).2 = true)
    (h1 : (tf ((split ',' line).getD 1 [])).2 = true) :
    parseSerialLine tf line st =
      ({ st with pitch := (tf ((split ',' line).getD 0 [])).1,
                 roll := (tf ((split ',' line).getD 1 [])).1 }, ParseOutcome.updated) := by
  simp only [parseSerialLine, h, if_true, h0, h1, Bool.and_self]

/-- C2 (outcome of parsing one line). For every number parser, line and state:
fewer than two comma-separated fields give the rejection "Invalid data format"
with the state untouched; at least two fields of which field 0 or field 1 is
not a valid number give the rejection "Failed to parse pitch/roll" with the
state untouched; otherwise pitch becomes the number of field 0 and roll the
number of field 1 and nothing else changes. Only the first two fields matter:
two lines that agree on them are treated alike. With the reference decimal
parser, "1.5,-2.25" stores pitch 1.5 and roll -2.25 (also when further fields
follow), "1.5" has too few fields and "x,2" has a malformed number. -/
theorem parse_outcome :
    (∀ (toFloat : QString → ℚ × Bool) (line : QString) (st : State),
      ((split ',' line).length < 2 →
        parseSerialLine toFloat line st = (st, ParseOutcome.invalidFormat)) ∧
      (2 ≤ (split ',' line).length →
        ((toFloat ((split ',' line).getD 0 [])).2 = false ∨
          (toFloat ((split ',' line).getD 1 [])).2 = false) →
        parseSerialLine toFloat line st = (st, ParseOutcome.failedToParse)) ∧
      (2 ≤ (split ',' line).length →
        (toFloat ((split ',' line).getD 0 [])).2 = true →
        (toFloat ((split ',' line).getD 1 [])).2 = true →
        parseSerialLine toFloat line st =
          ({ st with pitch := (toFloat ((split ',' line).getD 0 [])).1,
                     roll := (toFloat ((split ',' line).getD 1 [])).1 },
            ParseOutcome.updated)) ∧
      (∀ line2 : QString, 2 ≤ (split ',' line).length →
        (split ',' line2).take 2 = (split ',' line).take 2 →
        parseSerialLine toFloat line2 st = parseSerialLine toFloat line st)) ∧
    (∀ st : State,
      parseSerialLine toFloatDecimal "1.5,-2.25".toList st =
        ({ st with pitch := 3 / 2, roll := -9 / 4 }, ParseOutcome.updated) ∧
      parseSerialLine toFloatDecimal "1.5,-2.25,7,north".toList st =
        ({ st with pitch := 3 / 2, roll := -9 / 4 }, ParseOutcome.updated) ∧
      parseSerialLine toFloatDecimal "1.5".toList st = (st, ParseOutcome.invalidFormat) ∧
      parseSerialLine toFloatDecimal "x,2".toList st = (st, ParseOutcome.failedToParse)) := by
  constructor
  · intro toFloat line st
    exact ⟨parseSerialLine_few toFloat line st, parseSerialLine_bad toFloat line st,
      parseSerialLine_good toFloat line st,
      fun line2 h ht => parseSerialLine_of_fields toFloat line line2 st h ht⟩
  · intro st
    have a0 : toFloatDecimal ((split ',' "1.5,-2.25".toList).getD 0 []) = (3 / 2, true) := by
      decide!
    have a1 : toFloatDecimal ((split ',' "1.5,-2.25".toList).getD 1 []) = (-9 / 4, true) := by
      decide!
    have a2 : 2 ≤ (split ',' "1.5,-2.25".toList).length := by decide
    have b2 : 2 ≤ (split ',' "x,2".toList).length := by decide
    have b0 : (toFloatDecimal ((split ',' "x,2".toList).getD 0 [])).2 = false := by decide!
    have g := parseSerialLine_good toFloatDecimal "1.5,-2.25".toList st a2
      (by rw [a0]) (by rw [a1])
    rw [a0, a1] at g
    refine ⟨g, ?_, ?_, ?_⟩
    · rw [parseSerialLine_of_fields toFloatDecimal "1.5,-2.25".toList
        "1.5,-2.25,7,north".toList st a2 (by decide)]
      exact g
    · exact parseSerialLine_few toFloatDecimal "1.5".toList st (by decide)
    · exact parseSerialLine_bad toFloatDecimal "x,2".toList st b2 (Or.inl b0)

/-- C3 (a rejected line never changes the stored attitude). Whenever
`parseSerialLine` rejects a line, that is, the line has fewer than two fields,
or field 0 is not a number, or field 1 is not a number (so also when exactly
one of the two is valid), the outcome is a rejection and the whole state and
in particular both pitch and roll are what they were before the call: there
is no partial update. -/
theorem rejected_line_keeps_attitude (toFloat : QString → ℚ × Bool) (line : QString)
    (st : State)
    (h : (split ',' line).length < 2 ∨
      (toFloat ((split ',' line).getD 0 [])).2 = false ∨
      (toFloat ((split ',' line).getD 1 [])).2 = false) :
    (parseSerialLine toFloat line st).2 ≠ ParseOutcome.updated ∧
    (parseSerialLine toFloat line st).1 = st ∧
    (parseSerialLine toFloat line st).1.pitch = st.pitch ∧
    (parseSerialLine toFloat line st).1.roll = st.roll := by
  have key : (parseSerialLine toFloat line st).2 ≠ ParseOutcome.updated ∧
      (parseSerialLine toFloat line st).1 = st := by
    by_cases h2 : 2 ≤ (split ',' line).length
    · rcases h with h | h | h
      · omega
      · rw [parseSerialLine_bad toFloat line st h2 (Or.inl h)]
        exact ⟨fun h0 => ParseOutcome.noConfusion h0, rfl⟩
      · rw [parseSerialLine_bad toFloat line st h2 (Or.inr h)]
        exact ⟨fun h0 => ParseOutcome.noConfusion h0, rfl⟩
    · rw [parseSerialLine_few toFloat line st (by omega)]
      exact ⟨fun h0 => ParseOutcome.noConfusion h0, rfl⟩
  exact ⟨key.1, key.2, by rw [key.2], by rw [key.2]⟩

theorem rejected_line_keeps_attitude_witness :
    ((split ',' "bad".toList).length < 2 ∨
      (toFloatDecimal ((split ',' "bad".toList).getD 0 [])).2 = false ∨
      (toFloatDecimal ((split ',' "bad".toList).getD 1 [])).2 = false) ∧
    (parseSerialLine toFloatDecimal "10,20".toList initialState).2 = ParseOutcome.updated ∧
    (parseSerialLine toFloatDecimal "10,20".toList initialState).1.pitch = 10 ∧
    (parseSerialLine toFloatDecimal "10,20".toList initialState).1.roll = 20 ∧
    (parseSerialLine toFloatDecimal "bad".toList
      (parseSerialLine toFloatDecimal "10,20".toList initialState).1).1.pitch = 10 ∧
    (parseSerialLine toFloatDecimal "bad".toList
      (parseSerialLine toFloatDecimal "10,20".toList initialState).1).1.roll = 20 := by
  have hb : (split ',' "bad".toList).length < 2 ∨
      (toFloatDecimal ((split ',' "bad".toList).getD 0 [])).2 = false ∨
      (toFloatDecimal ((split ',' "bad".toList).getD 1 [])).2 = false := Or.inl (by decide)
  have hk := rejected_line_keeps_attitude toFloatDecimal "bad".toList
    (parseSerialLine toFloatDecimal "10,20".toList initialState).1 hb
  have h1 : (parseSerialLine toFloatDecimal "10,20".toList initialState).2 =
      ParseOutcome.updated := by decide!
  have h2 : (parseSerialLine toFloatDecimal "10,20".toList initialState).1.pitch = 10 := by
    decide!
  have h3 : (parseSerialLine toFloatDecimal "10,20".toList initialState).1.roll = 20 := by
    decide!
  exact ⟨hb, h1, h2, h3, hk.2.2.1.trans h2, hk.2.2.2.trans h3⟩


/-! ## Lemmas: rounding -/

theorem bitLenAux_spec : ∀ (fuel n : Nat), n ≤ fuel → n ≠ 0 →
    ∃ b, bitLenAux fuel n = b + 1 ∧ 2 ^ b ≤ n ∧ n < 2 ^ (b + 1) := by
  intro fuel
  induction fuel with
  | zero =>
    intro n h h0
    omega
  | succ f ih =>
    intro n h h0
    simp only [bitLenAux, h0, if_false]
    by_cases h1 : n / 2 = 0
    · refine ⟨0, ?_, ?_, ?_⟩
      · have h2 : bitLenAux f (n / 2) = 0 := by
          rw [h1]
          cases f <;> simp [bitLenAux]
        rw [h2]
      · simp only [pow_zero]
        omega
      · simp only [zero_add, pow_one]
        omega
    · obtain ⟨b, hb, hlo, hhi⟩ := ih (n / 2) (by omega) h1
      refine ⟨b + 1, by rw [hb], ?_, ?_⟩
      · rw [pow_succ]
        omega
      · rw [pow_succ] at hhi ⊢
        omega

theorem bitLen_spec (n : Nat) (h0 : n ≠ 0) :
    ∃ b, bitLen n = b + 1 ∧ 2 ^ b ≤ n ∧ n < 2 ^ (b + 1) :=
  bitLenAux_spec n n (Nat.le_refl n) h0

theorem abs_eq_natAbs_div_den (x : ℚ) : |x| = (x.num.natAbs : ℚ) / (x.den : ℚ) := by
  have hd : (0 : ℚ) < (x.den : ℚ) := by exact_mod_cast x.den_pos
  conv_lhs => rw [← Rat.num_div_den x]
  rw [abs_div, abs_of_pos hd, Nat.cast_natAbs, Int.cast_abs]

/-- The exponent computed by `ilog2` is not too large: `2 ^ ilog2 x ≤ |x|`. -/
theorem two_zpow_ilog2_le (x : ℚ) (hx : x ≠ 0) : (2 : ℚ) ^ (ilog2 x) ≤ |x| := by
  unfold ilog2
  dsimp only
  split_ifs with h
  · have hn0 : x.num.natAbs ≠ 0 := by
      intro h0
      exact hx (Rat.zero_of_num_zero (Int.natAbs_eq_zero.mp h0))
    have hd0 : x.den ≠ 0 := x.den_nz
    obtain ⟨bn, hbn, hnlo, _⟩ := bitLen_spec _ hn0
    obtain ⟨bd, hbd, _, hdhi⟩ := bitLen_spec _ hd0
    rw [hbn, hbd, abs_eq_natAbs_div_den]
    have hd : (0 : ℚ) < (x.den : ℚ) := by exact_mod_cast x.den_pos
    have e1 : ((bn + 1 : ℕ) : ℤ) - ((bd + 1 : ℕ) : ℤ) - 1 = (bn : ℤ) - ((bd + 1 : ℕ) : ℤ) := by
      push_cast
      ring
    rw [e1, zpow_sub₀ (by norm_num : (2 : ℚ) ≠ 0), zpow_natCast, zpow_natCast]
    have h1 : ((2 : ℚ) ^ bn) ≤ (x.num.natAbs : ℚ) := by exact_mod_cast hnlo
    have h2 : (x.den : ℚ) ≤ (2 : ℚ) ^ (bd + 1) := by exact_mod_cast (Nat.le_of_lt hdhi)
    exact div_le_div₀ (by positivity) h1 hd h2
  · exact not_lt.mp h

theorem roundHalfEven_sub_le (y : ℚ) : |(roundHalfEven y : ℚ) - y| ≤ 1 / 2 := by
  unfold roundHalfEven
  dsimp only
  have h1 := Int.floor_le y
  have h2 := Int.lt_floor_add_one y
  split_ifs with ha hb hc
  · rw [abs_le]
    constructor <;> linarith
  · rw [abs_le]
    push_cast
    constructor <;> linarith
  · rw [abs_le]
    constructor <;> linarith
  · rw [abs_le]
    push_cast
    constructor <;> linarith

theorem floor_le_roundHalfEven (y : ℚ) : ⌊y⌋ ≤ roundHalfEven y := by
  unfold roundHalfEven
  dsimp only
  split_ifs <;> omega

/-- One rounding moves a value of magnitude below `2 ^ (E + 1)` by at most
half a unit in the last place of that binade, `2 ^ (E + 1 - p)` halved. -/
theorem rnd_error (p : ℕ) (E : ℤ) (x : ℚ) (hx : |x| < (2 : ℚ) ^ (E + 1)) :
    |rnd p x - x| ≤ (2 : ℚ) ^ (E - p) := by
  unfold rnd
  split_ifs with h0
  · rw [h0]
    simp only [sub_zero, abs_zero]
    positivity
  · dsimp only
    have hlo := two_zpow_ilog2_le x h0
    have he : ilog2 x < E + 1 := by
      by_contra hcon
      have : (2 : ℚ) ^ (E + 1) ≤ (2 : ℚ) ^ (ilog2 x) :=
        zpow_le_zpow_right₀ (by norm_num) (not_lt.mp hcon)
      linarith
    have hk : (0 : ℚ) < (2 : ℚ) ^ ((p : ℤ) - 1 - ilog2 x) := by positivity
    have hr := roundHalfEven_sub_le (x * (2 : ℚ) ^ ((p : ℤ) - 1 - ilog2 x))
    have e1 : (roundHalfEven (x * (2 : ℚ) ^ ((p : ℤ) - 1 - ilog2 x)) : ℚ) /
          (2 : ℚ) ^ ((p : ℤ) - 1 - ilog2 x) - x =
        ((roundHalfEven (x * (2 : ℚ) ^ ((p : ℤ) - 1 - ilog2 x)) : ℚ) -
          x * (2 : ℚ) ^ ((p : ℤ) - 1 - ilog2 x)) / (2 : ℚ) ^ ((p : ℤ) - 1 - ilog2 x) := by
      rw [sub_div, mul_div_assoc, div_self (ne_of_gt hk), mul_one]
    rw [e1, abs_div, abs_of_pos hk, div_le_iff₀ hk]
    have e2 : (2 : ℚ) ^ (E - p) * (2 : ℚ) ^ ((p : ℤ) - 1 - ilog2 x) =
        (2 : ℚ) ^ (E - 1 - ilog2 x) := by
      rw [← zpow_add₀ (by norm_num : (2 : ℚ) ≠ 0)]
      congr 1
      ring
    rw [e2]
    have h3 : (2 : ℚ) ^ (-1 : ℤ) ≤ (2 : ℚ) ^ (E - 1 - ilog2 x) :=
      zpow_le_zpow_right₀ (by norm_num) (by omega)
    have e3 : (2 : ℚ) ^ (-1 : ℤ) = 1 / 2 := by norm_num
    rw [e3] at h3
    linarith

/-- Rounding keeps positive values positive. -/
theorem rnd_pos (p : ℕ) (hp : 1 ≤ p) (x : ℚ) (hx : 0 < x) : 0 < rnd p x := by
  unfold rnd
  have h0 : x ≠ 0 := ne_of_gt hx
  rw [if_neg h0]
  dsimp only
  have hlo := two_zpow_ilog2_le x h0
  rw [abs_of_pos hx] at hlo
  have hk : (0 : ℚ) < (2 : ℚ) ^ ((p : ℤ) - 1 - ilog2 x) := by positivity
  apply div_pos _ hk
  have h1 : (1 : ℚ) ≤ x * (2 : ℚ) ^ ((p : ℤ) - 1 - ilog2 x) := by
    have h2 : (2 : ℚ) ^ (ilog2 x) * (2 : ℚ) ^ ((p : ℤ) - 1 - ilog2 x) ≤
        x * (2 : ℚ) ^ ((p : ℤ) - 1 - ilog2 x) :=
      mul_le_mul_of_nonneg_right hlo (le_of_lt hk)
    rw [← zpow_add₀ (by norm_num : (2 : ℚ) ≠ 0)] at h2
    have h3 : (2 : ℚ) ^ (0 : ℤ) ≤ (2 : ℚ) ^ (ilog2 x + ((p : ℤ) - 1 - ilog2 x)) :=
      zpow_le_zpow_right₀ (by norm_num) (by omega)
    rw [zpow_zero] at h3
    linarith
  have h4 : (1 : ℤ) ≤ ⌊x * (2 : ℚ) ^ ((p : ℤ) - 1 - ilog2 x)⌋ := by
    rw [Int.le_floor]
    exact_mod_cast h1
  have h5 := floor_le_roundHalfEven (x * (2 : ℚ) ^ ((p : ℤ) - 1 - ilog2 x))
  have h6 : (1 : ℤ) ≤ roundHalfEven (x * (2 : ℚ) ^ ((p : ℤ) - 1 - ilog2 x)) := le_trans h4 h5
  have : (0 : ℚ) < (roundHalfEven (x * (2 : ℚ) ^ ((p : ℤ) - 1 - ilog2 x)) : ℚ) := by
    exact_mod_cast (by omega : (0 : ℤ) < roundHalfEven (x * (2 : ℚ) ^ ((p : ℤ) - 1 - ilog2 x)))
  exact this


/-! ## Lemmas: the simulation clock -/

theorem tick_simTime (mode : SourceMode) (sin : ℚ → ℚ) (ts : String) (st : State) :
    (tick mode sin ts st).1.simTime = advanceClock st.simTime := by
  cases mode <;> rfl

theorem runTicks_simTime (mode : SourceMode) (sin : ℚ → ℚ) (times : Nat → String) (st : State) :
    ∀ n, (runTicks mode sin times n st).simTime = advanceClock^[n] st.simTime := by
  intro n
  induction n with
  | zero => rfl
  | succ n ih =>
    rw [Function.iterate_succ_apply', ← ih]
    exact tick_simTime mode sin _ _

theorem clock_step_pos : (0 : ℚ) < f64 (2 / 100) :=
  rnd_pos 53 (by norm_num) _ (by norm_num)

theorem advanceClock_iterate_pos (s : ℚ) (hs : 0 < s) : ∀ n, 0 < advanceClock^[n] s := by
  intro n
  induction n with
  | zero => exact hs
  | succ n ih =>
    rw [Function.iterate_succ_apply']
    exact rnd_pos 53 (by norm_num) _ (add_pos ih clock_step_pos)

/-- Accumulated rounding error of `n` clock increments. -/
theorem advanceClock_iterate_error (E : ℤ) (s : ℚ) :
    ∀ n : ℕ, |s| + (n : ℚ) * f64 (2 / 100) + (n : ℚ) * (2 : ℚ) ^ (E - 53) < (2 : ℚ) ^ (E + 1) →
      |advanceClock^[n] s - (s + (n : ℚ) * f64 (2 / 100))| ≤ (n : ℚ) * (2 : ℚ) ^ (E - 53) := by
  intro n
  have hc := clock_step_pos
  have hu : (0 : ℚ) < (2 : ℚ) ^ (E - 53) := by positivity
  induction n with
  | zero =>
    intro _
    simp
  | succ n ih =>
    intro h
    push_cast at h ⊢
    have hprev : |s| + (n : ℚ) * f64 (2 / 100) + (n : ℚ) * (2 : ℚ) ^ (E - 53)
        < (2 : ℚ) ^ (E + 1) := by nlinarith
    have h1 := ih hprev
    rw [Function.iterate_succ_apply']
    have hn : (0 : ℚ) ≤ (n : ℚ) := Nat.cast_nonneg n
    have hb : |advanceClock^[n] s + f64 (2 / 100)| < (2 : ℚ) ^ (E + 1) := by
      have e : advanceClock^[n] s + f64 (2 / 100) =
          (advanceClock^[n] s - (s + (n : ℚ) * f64 (2 / 100))) +
            (s + ((n : ℚ) + 1) * f64 (2 / 100)) := by ring
      rw [e]
      have t1 := abs_add (advanceClock^[n] s - (s + (n : ℚ) * f64 (2 / 100)))
        (s + ((n : ℚ) + 1) * f64 (2 / 100))
      have t2 := abs_add s (((n : ℚ) + 1) * f64 (2 / 100))
      have t3 : |((n : ℚ) + 1) * f64 (2 / 100)| = ((n : ℚ) + 1) * f64 (2 / 100) :=
        abs_of_nonneg (by positivity)
      nlinarith
    have h2 := rnd_error 53 E _ hb
    have e2 : advanceClock (advanceClock^[n] s) - (s + ((n : ℚ) + 1) * f64 (2 / 100)) =
        (rnd 53 (advanceClock^[n] s + f64 (2 / 100)) - (advanceClock^[n] s + f64 (2 / 100))) +
          (advanceClock^[n] s - (s + (n : ℚ) * f64 (2 / 100))) := by
      simp only [advanceClock, dadd]
      ring
    rw [e2]
    have t4 := abs_add
      (rnd 53 (advanceClock^[n] s + f64 (2 / 100)) - (advanceClock^[n] s + f64 (2 / 100)))
      (advanceClock^[n] s - (s + (n : ℚ) * f64 (2 / 100)))
    push_cast at h2
    linarith


/-! ## Lemmas: the clock inside one binade -/

theorem abs_lt_two_zpow_ilog2_succ (x : ℚ) (hx : x ≠ 0) : |x| < (2 : ℚ) ^ (ilog2 x + 1) := by
  have hn0 : x.num.natAbs ≠ 0 := by
    intro h0
    exact hx (Rat.zero_of_num_zero (Int.natAbs_eq_zero.mp h0))
  have hd0 : x.den ≠ 0 := x.den_nz
  obtain ⟨bn, hbn, _, hnhi⟩ := bitLen_spec _ hn0
  obtain ⟨bd, hbd, hdlo, _⟩ := bitLen_spec _ hd0
  unfold ilog2
  dsimp only
  split_ifs with h
  · rw [sub_add_cancel]
    exact h
  · rw [hbn, hbd, abs_eq_natAbs_div_den]
    have hd : (0 : ℚ) < (x.den : ℚ) := by exact_mod_cast x.den_pos
    have e1 : ((bn + 1 : ℕ) : ℤ) - ((bd + 1 : ℕ) : ℤ) + 1 = ((bn + 1 : ℕ) : ℤ) - (bd : ℤ) := by
      push_cast
      ring
    rw [e1, zpow_sub₀ (by norm_num : (2 : ℚ) ≠ 0), zpow_natCast, zpow_natCast]
    have h1 : (x.num.natAbs : ℚ) < (2 : ℚ) ^ (bn + 1) := by exact_mod_cast hnhi
    have h2 : ((2 : ℚ) ^ bd) ≤ (x.den : ℚ) := by exact_mod_cast hdlo
    have h3 : (0 : ℚ) < (2 : ℚ) ^ bd := by positivity
    rw [div_lt_div_iff₀ hd h3]
    have h4 : (0 : ℚ) ≤ (x.num.natAbs : ℚ) := Nat.cast_nonneg _
    nlinarith

/-- The binary exponent is determined by the binade that holds the value. -/
theorem ilog2_eq (x : ℚ) (e : ℤ) (hlo : (2 : ℚ) ^ e ≤ |x|) (hhi : |x| < (2 : ℚ) ^ (e + 1)) :
    ilog2 x = e := by
  have hx : x ≠ 0 := by
    intro h0
    rw [h0, abs_zero] at hlo
    have : (0 : ℚ) < (2 : ℚ) ^ e := by positivity
    linarith
  have h1 := two_zpow_ilog2_le x hx
  have h2 := abs_lt_two_zpow_ilog2_succ x hx
  have a1 : ilog2 x < e + 1 :=
    (zpow_lt_zpow_iff_right₀ (by norm_num : (1 : ℚ) < 2)).mp (lt_of_le_of_lt h1 hhi)
  have a2 : e < ilog2 x + 1 :=
    (zpow_lt_zpow_iff_right₀ (by norm_num : (1 : ℚ) < 2)).mp (lt_of_le_of_lt hlo h2)
  omega

theorem roundHalfEven_int_add (M : ℤ) (z : ℚ) (hz : z - (⌊z⌋ : ℚ) ≠ 1 / 2) :
    roundHalfEven ((M : ℚ) + z) = M + roundHalfEven z := by
  unfold roundHalfEven
  dsimp only
  have e1 : ((M : ℚ) + z) - ((⌊(M : ℚ) + z⌋ : ℤ) : ℚ) = z - (⌊z⌋ : ℚ) := by
    rw [Int.floor_int_add]
    push_cast
    ring
  rw [e1, Int.floor_int_add]
  by_cases ha : z - (⌊z⌋ : ℚ) < 1 / 2
  · simp only [ha, if_true]
  · by_cases hb : 1 / 2 < z - (⌊z⌋ : ℚ)
    · simp only [ha, hb, if_true, if_false]
      ring
    · exact absurd (le_antisymm (not_lt.mp hb) (not_lt.mp ha)) hz

/-- One clock increment from a value `M * 2^(e-52)` whose sum with 0.02 lies in
the binade `[2^e, 2^(e+1))`: the increment adds a fixed number of units in the
last place of that binade. -/
theorem advanceClock_in_binade (e M : ℤ)
    (hfr : f64 (2 / 100) / (2 : ℚ) ^ (e - 52) - (⌊f64 (2 / 100) / (2 : ℚ) ^ (e - 52)⌋ : ℚ)
      ≠ 1 / 2)
    (hlo : (2 : ℚ) ^ e ≤ (M : ℚ) * (2 : ℚ) ^ (e - 52) + f64 (2 / 100))
    (hhi : (M : ℚ) * (2 : ℚ) ^ (e - 52) + f64 (2 / 100) < (2 : ℚ) ^ (e + 1)) :
    advanceClock ((M : ℚ) * (2 : ℚ) ^ (e - 52)) =
      ((M + roundHalfEven (f64 (2 / 100) / (2 : ℚ) ^ (e - 52)) : ℤ) : ℚ) * (2 : ℚ) ^ (e - 52) := by
  have hpos : (0 : ℚ) < (M : ℚ) * (2 : ℚ) ^ (e - 52) + f64 (2 / 100) :=
    lt_of_lt_of_le (by positivity) hlo
  have hu : (0 : ℚ) < (2 : ℚ) ^ (e - 52) := by positivity
  have hil : ilog2 ((M : ℚ) * (2 : ℚ) ^ (e - 52) + f64 (2 / 100)) = e :=
    ilog2_eq _ e (by rw [abs_of_pos hpos]; exact hlo) (by rw [abs_of_pos hpos]; exact hhi)
  have hk : (2 : ℚ) ^ (((53 : ℕ) : ℤ) - 1 - e) = ((2 : ℚ) ^ (e - 52))⁻¹ := by
    rw [← zpow_neg]
    congr 1
    push_cast
    ring
  simp only [advanceClock, dadd, rnd, if_neg (ne_of_gt hpos), hil, hk]
  have e2 : ((M : ℚ) * (2 : ℚ) ^ (e - 52) + f64 (2 / 100)) * ((2 : ℚ) ^ (e - 52))⁻¹ =
      (M : ℚ) + f64 (2 / 100) / (2 : ℚ) ^ (e - 52) := by
    field_simp
  rw [e2, roundHalfEven_int_add M _ hfr, div_inv_eq_mul]

/-- A run of `j` clock increments that stays inside one binade. -/
theorem advanceClock_run (e M D : ℤ)
    (hD : roundHalfEven (f64 (2 / 100) / (2 : ℚ) ^ (e - 52)) = D) (hD0 : 0 ≤ D)
    (hfr : f64 (2 / 100) / (2 : ℚ) ^ (e - 52) - (⌊f64 (2 / 100) / (2 : ℚ) ^ (e - 52)⌋ : ℚ)
      ≠ 1 / 2)
    (hlo : (2 : ℚ) ^ e ≤ (M : ℚ) * (2 : ℚ) ^ (e - 52) + f64 (2 / 100)) :
    ∀ j : ℕ,
      ((M + ((j : ℤ) - 1) * D : ℤ) : ℚ) * (2 : ℚ) ^ (e - 52) + f64 (2 / 100) < (2 : ℚ) ^ (e + 1) →
      advanceClock^[j] ((M : ℚ) * (2 : ℚ) ^ (e - 52)) =
        ((M + (j : ℤ) * D : ℤ) : ℚ) * (2 : ℚ) ^ (e - 52) := by
  have hu : (0 : ℚ) < (2 : ℚ) ^ (e - 52) := by positivity
  have hDq : (0 : ℚ) ≤ (D : ℚ) := by exact_mod_cast hD0
  intro j
  induction j with
  | zero =>
    intro _
    simp
  | succ j ih =>
    intro hhi
    have hj : (0 : ℚ) ≤ (j : ℚ) := Nat.cast_nonneg j
    have hhi2 : ((M + ((j : ℤ)) * D : ℤ) : ℚ) * (2 : ℚ) ^ (e - 52) + f64 (2 / 100)
        < (2 : ℚ) ^ (e + 1) := by
      have : (((j + 1 : ℕ) : ℤ) - 1) = (j : ℤ) := by push_cast; ring
      rw [this] at hhi
      exact hhi
    have hprev : ((M + ((j : ℤ) - 1) * D : ℤ) : ℚ) * (2 : ℚ) ^ (e - 52) + f64 (2 / 100)
        < (2 : ℚ) ^ (e + 1) := by
      have hle : ((M + ((j : ℤ) - 1) * D : ℤ) : ℚ) * (2 : ℚ) ^ (e - 52) ≤
          ((M + ((j : ℤ)) * D : ℤ) : ℚ) * (2 : ℚ) ^ (e - 52) := by
        apply mul_le_mul_of_nonneg_right _ (le_of_lt hu)
        push_cast
        nlinarith
      linarith
    have hlo2 : (2 : ℚ) ^ e ≤ ((M + (j : ℤ) * D : ℤ) : ℚ) * (2 : ℚ) ^ (e - 52) + f64 (2 / 100) := by
      have hle : (M : ℚ) * (2 : ℚ) ^ (e - 52) ≤
          ((M + ((j : ℤ)) * D : ℤ) : ℚ) * (2 : ℚ) ^ (e - 52) := by
        apply mul_le_mul_of_nonneg_right _ (le_of_lt hu)
        push_cast
        nlinarith
      linarith
    rw [Function.iterate_succ_apply', ih hprev,
      advanceClock_in_binade e (M + (j : ℤ) * D) hfr hlo2 hhi2, hD]
    congr 1
    push_cast
    ring

/-! ## Lemmas: the clock trajectory after start-up -/

theorem clock_segment_1 : advanceClock^[49] (f64 (2 / 100)) =
    2251799813685249 / 2251799813685248 := by decide!

theorem clock_segment_2 : advanceClock^[49] (2251799813685249 / 2251799813685248) =
    2229281815548397 / 1125899906842624 := by
  have h := advanceClock_run (0) 4503599627370498 90071992547410 (by decide!) (by decide) (by decide!) (by decide!)
    49 (by decide!)
  have a : ((4503599627370498 : ℤ) : ℚ) * (2 : ℚ) ^ ((0 : ℤ) - 52) = 2251799813685249 / 2251799813685248 := by decide!
  have b : ((4503599627370498 + ((49 : ℕ) : ℤ) * 90071992547410 : ℤ) : ℚ) * (2 : ℚ) ^ ((0 : ℤ) - 52) =
      2229281815548397 / 1125899906842624 := by decide!
  rw [a, b] at h
  exact h

theorem clock_segment_3 : advanceClock^[100] (2229281815548397 / 1125899906842624) =
    4481081629233647 / 1125899906842624 := by
  have h := advanceClock_run (1) 4458563631096794 45035996273705 (by decide!) (by decide) (by decide!) (by decide!)
    100 (by decide!)
  have a : ((4458563631096794 : ℤ) : ℚ) * (2 : ℚ) ^ ((1 : ℤ) - 52) = 2229281815548397 / 1125899906842624 := by decide!
  have b : ((4458563631096794 + ((100 : ℕ) : ℤ) * 45035996273705 : ℤ) : ℚ) * (2 : ℚ) ^ ((1 : ℤ) - 52) =
      4481081629233647 / 1125899906842624 := by decide!
  rw [a, b] at h
  exact h

theorem clock_segment_4 : advanceClock^[201] (4481081629233647 / 1125899906842624) =
    9007199254740899 / 1125899906842624 := by
  have h := advanceClock_run (2) 4481081629233647 22517998136852 (by decide!) (by decide) (by decide!) (by decide!)
    201 (by decide!)
  have a : ((4481081629233647 : ℤ) : ℚ) * (2 : ℚ) ^ ((2 : ℤ) - 52) = 4481081629233647 / 1125899906842624 := by decide!
  have b : ((4481081629233647 + ((201 : ℕ) : ℤ) * 22517998136852 : ℤ) : ℚ) * (2 : ℚ) ^ ((2 : ℤ) - 52) =
      9007199254740899 / 1125899906842624 := by decide!
  rw [a, b] at h
  exact h

theorem clock_segment_5 : advanceClock^[1] (9007199254740899 / 1125899906842624) =
    1128714656609719 / 140737488355328 := by decide!

theorem clock_segment_6 : advanceClock^[399] (1128714656609719 / 140737488355328) =
    4503599627370425 / 281474976710656 := by
  have h := advanceClock_run (3) 4514858626438876 11258999068426 (by decide!) (by decide) (by decide!) (by decide!)
    399 (by decide!)
  have a : ((4514858626438876 : ℤ) : ℚ) * (2 : ℚ) ^ ((3 : ℤ) - 52) = 1128714656609719 / 140737488355328 := by decide!
  have b : ((4514858626438876 + ((399 : ℕ) : ℤ) * 11258999068426 : ℤ) : ℚ) * (2 : ℚ) ^ ((3 : ℤ) - 52) =
      4503599627370425 / 281474976710656 := by decide!
  rw [a, b] at h
  exact h

theorem clock_segment_7 : advanceClock^[800] (4503599627370425 / 281474976710656) =
    9007199254740825 / 281474976710656 := by
  have h := advanceClock_run (4) 4503599627370425 5629499534213 (by decide!) (by decide) (by decide!) (by decide!)
    800 (by decide!)
  have a : ((4503599627370425 : ℤ) : ℚ) * (2 : ℚ) ^ ((4 : ℤ) - 52) = 4503599627370425 / 281474976710656 := by decide!
  have b : ((4503599627370425 + ((800 : ℕ) : ℤ) * 5629499534213 : ℤ) : ℚ) * (2 : ℚ) ^ ((4 : ℤ) - 52) =
      9007199254740825 / 281474976710656 := by decide!
  rw [a, b] at h
  exact h

theorem clock_segment_8 : advanceClock^[1] (9007199254740825 / 281474976710656) =
    4506414377137519 / 140737488355328 := by decide!

theorem clock_segment_9 : advanceClock^[1598] (4506414377137519 / 140737488355328) =
    9004384504974505 / 140737488355328 := by
  have h := advanceClock_run (5) 4506414377137519 2814749767107 (by decide!) (by decide) (by decide!) (by decide!)
    1598 (by decide!)
  have a : ((4506414377137519 : ℤ) : ℚ) * (2 : ℚ) ^ ((5 : ℤ) - 52) = 4506414377137519 / 140737488355328 := by decide!
  have b : ((4506414377137519 + ((1598 : ℕ) : ℤ) * 2814749767107 : ℤ) : ℚ) * (2 : ℚ) ^ ((5 : ℤ) - 52) =
      9004384504974505 / 140737488355328 := by decide!
  rw [a, b] at h
  exact h

theorem clock_segment_10 : advanceClock^[1] (9004384504974505 / 140737488355328) =
    2251799813685403 / 35184372088832 := by decide!

theorem clock_segment_11 : advanceClock^[2200] (2251799813685403 / 35184372088832) =
    3799912185593703 / 35184372088832 := by
  have h := advanceClock_run (6) 4503599627370806 1407374883553 (by decide!) (by decide) (by decide!) (by decide!)
    2200 (by decide!)
  have a : ((4503599627370806 : ℤ) : ℚ) * (2 : ℚ) ^ ((6 : ℤ) - 52) = 2251799813685403 / 35184372088832 := by decide!
  have b : ((4503599627370806 + ((2200 : ℕ) : ℤ) * 1407374883553 : ℤ) : ℚ) * (2 : ℚ) ^ ((6 : ℤ) - 52) =
      3799912185593703 / 35184372088832 := by decide!
  rw [a, b] at h
  exact h

/-- The clock value after 5399 ticks from the constructor value 0.02: the
`double` printed as 107.99999999999565. -/
theorem clock_after_5399 : advanceClock^[5399] (f64 (2 / 100)) =
    3799912185593703 / 35184372088832 := by
  have e : 5399 = 2200 + (1 + (1598 + (1 + (800 + (399 + (1 + (201 + (100 + (49 + (49)))))))))) := by norm_num
  rw [e]
  simp only [Function.iterate_add_apply]
  rw [clock_segment_1, clock_segment_2, clock_segment_3, clock_segment_4, clock_segment_5, clock_segment_6, clock_segment_7, clock_segment_8, clock_segment_9, clock_segment_10, clock_segment_11]


/-! ## Tick handlers: snapshots -/

theorem dmul_zero_left (y : ℚ) : dmul 0 y = 0 := by
  simp [dmul, rnd]

theorem dmul_zero_right (x : ℚ) : dmul x 0 = 0 := by
  simp [dmul, rnd]

/-- C5 (live-mode tick). One `updateDisplay` tick hands `setAttitude` a snapshot
whose pitch and roll are exactly the stored ones, leaves the stored pitch and
roll (and the serial buffer) unchanged, advances the clock by one rounded
addition of 0.02, and fills every secondary field with the live-mode formula
evaluated at the advanced clock value. After feeding "5.0,-1.0" and a newline
to a freshly constructed window, the next tick shows pitch 5 and roll -1. -/
theorem live_tick (sin : ℚ → ℚ) (timeStr : String) (st : State) :
    (updateDisplay sin timeStr st).2.pitch = st.pitch ∧
    (updateDisplay sin timeStr st).2.roll = st.roll ∧
    (updateDisplay sin timeStr st).1.pitch = st.pitch ∧
    (updateDisplay sin timeStr st).1.roll = st.roll ∧
    (updateDisplay sin timeStr st).1.serialBuffer = st.serialBuffer ∧
    (updateDisplay sin timeStr st).1.simTime = dadd st.simTime (f64 (2 / 100)) ∧
    (updateDisplay sin timeStr st).2 =
      { pitch := st.pitch
        roll := st.roll
        altitude := f32 (dadd (f32 8500) (dmul (f32 100)
          (sin (dmul (updateDisplay sin timeStr st).1.simTime (f64 (2 / 10))))))
        speed := f32 (dadd (f32 70) (dmul (f32 30)
          (sin (dmul (updateDisplay sin timeStr st).1.simTime (f64 (4 / 10))))))
        heading := f32 (fmod (dmul (updateDisplay sin timeStr st).1.simTime (f64 10)) (f64 360))
        QNH := f32 (dadd (f32 (2992 / 100)) (dmul (f32 (1 / 10))
          (sin (dmul (updateDisplay sin timeStr st).1.simTime (f64 (3 / 10))))))
        flightMode := "MANUAL - MPU6050 Active"
        timeStr := timeStr
        rpm := [
          truncToInt (dadd 2500 (dmul (f32 500)
            (sin (dmul (updateDisplay sin timeStr st).1.simTime (f64 (2 / 10)))))),
          truncToInt (dadd 2500 (dmul (f32 400)
            (sin (dmul (updateDisplay sin timeStr st).1.simTime (f64 (25 / 100)))))),
          truncToInt (dadd 2500 (dmul (f32 450)
            (sin (dmul (updateDisplay sin timeStr st).1.simTime (f64 (27 / 100)))))),
          truncToInt (dadd 2500 (dmul (f32 480)
            (sin (dmul (updateDisplay sin timeStr st).1.simTime (f64 (29 / 100))))))]
        batteryState := f32 (dadd (f32 (42 / 10)) (dmul (f32 (2 / 10))
          (sin (dmul (updateDisplay sin timeStr st).1.simTime 5))))
        batteryLevel := f32 (dadd (f32 (56 / 100)) (dmul (f32 (1 / 10))
          (sin (dmul (updateDisplay sin timeStr st).1.simTime (f64 (2 / 100))))))
        propQuantity := 4
        OAT := f32 15 } ∧
    (updateDisplay sin timeStr
      (readSerialData utf8Decode toFloatDecimal "5.0,-1.0\n".toList initialState).1).2.pitch = 5 ∧
    (updateDisplay sin timeStr
      (readSerialData utf8Decode toFloatDecimal "5.0,-1.0\n".toList initialState).1).2.roll = -1 := by
  have hp : (readSerialData utf8Decode toFloatDecimal "5.0,-1.0\n".toList initialState).1.pitch = 5 := by
    decide!
  have hr : (readSerialData utf8Decode toFloatDecimal "5.0,-1.0\n".toList initialState).1.roll = -1 := by
    decide!
  exact ⟨rfl, rfl, rfl, rfl, rfl, rfl, rfl, hp, hr⟩

/-- C8 (simulated-mode snapshot at clock value 0). With `sin 0 = 0`, the
formulas of `updateSimulation` evaluated at simulated time 0 give the base
constants: pitch 0, roll 0, speed 70, heading 0, altitude 8500, QNH 29.92f,
battery voltage 4.2f, battery fraction 0.56f (the `float` literals of the
source, whose exact values are listed) and 2500 for each of the four rpm
values. The handler itself produces this snapshot when its increment lands on
0, that is from the clock value `-0.02`. -/
theorem simulated_snapshot_at_zero (sin : ℚ → ℚ) (timeStr : String) (h : sin 0 = 0) :
    simulationSnapshot sin timeStr 0 =
      { pitch := 0, roll := 0, altitude := 8500, speed := 70, heading := 0,
        QNH := f32 (2992 / 100), flightMode := "ATLC Takeoff Active", timeStr := timeStr,
        rpm := [2500, 2500, 2500, 2500], batteryState := f32 (42 / 10),
        batteryLevel := f32 (56 / 100), propQuantity := 4, OAT := 8 } ∧
    f32 (2992 / 100) = 15686697 / 524288 ∧
    f32 (42 / 10) = 4404019 / 1048576 ∧
    f32 (56 / 100) = 9395241 / 16777216 ∧
    (∀ st : State, st.simTime = -f64 (2 / 100) →
      (updateSimulation sin timeStr st).2 = simulationSnapshot sin timeStr 0) := by
  have e0 : f32 0 = 0 := by decide!
  have e1 : f32 (dadd (f32 70) 0) = 70 := by decide!
  have e2 : f32 (fmod 0 (f64 360)) = 0 := by decide!
  have e3 : f32 (dadd (f32 (42 / 10)) 0) = f32 (42 / 10) := by decide!
  have e4 : f32 (dadd (f32 (56 / 100)) 0) = f32 (56 / 100) := by decide!
  have e5 : truncToInt (dadd 2500 0) = 2500 := by decide!
  have e6 : f32 (dadd (f32 (2992 / 100)) 0) = f32 (2992 / 100) := by decide!
  have e7 : f32 (dadd (f32 8500) 0) = 8500 := by decide!
  have e8 : f32 8 = 8 := by decide!
  have e9 : advanceClock (-f64 (2 / 100)) = 0 := by decide!
  refine ⟨?_, by decide!, by decide!, by decide!, ?_⟩
  · simp only [simulationSnapshot, dmul_zero_left, dmul_zero_right, h, e0, e1, e2, e3, e4, e5,
      e6, e7, e8]
  · intro st hst
    simp only [updateSimulation, hst, e9]

theorem simulated_snapshot_at_zero_witness :
    (fun x : ℚ => f64 (x - x ^ 3 / 6)) 0 = 0 ∧
      (simulationSnapshot (fun x : ℚ => f64 (x - x ^ 3 / 6)) "12:00:00" 0 =
        { pitch := 0, roll := 0, altitude := 8500, speed := 70, heading := 0,
          QNH := f32 (2992 / 100), flightMode := "ATLC Takeoff Active", timeStr := "12:00:00",
          rpm := [2500, 2500, 2500, 2500], batteryState := f32 (42 / 10),
          batteryLevel := f32 (56 / 100), propQuantity := 4, OAT := 8 } ∧
      f32 (2992 / 100) = 15686697 / 524288 ∧
      f32 (42 / 10) = 4404019 / 1048576 ∧
      f32 (56 / 100) = 9395241 / 16777216 ∧
      (∀ st : State, st.simTime = -f64 (2 / 100) →
        (updateSimulation (fun x : ℚ => f64 (x - x ^ 3 / 6)) "12:00:00" st).2 =
          simulationSnapshot (fun x : ℚ => f64 (x - x ^ 3 / 6)) "12:00:00" 0)) :=
  ⟨by decide!, simulated_snapshot_at_zero (fun x : ℚ => f64 (x - x ^ 3 / 6)) "12:00:00"
    (by decide!)⟩


/-! ## Simulation clock and heading -/

theorem processLines_simTime (dec : QByteArray → QString) (tf : QString → ℚ × Bool) :
    ∀ (n : Nat) (st : State), (processLines dec tf n st).1.simTime = st.simTime := by
  intro n
  induction n with
  | zero =>
    intro st
    rfl
  | succ n ih =>
    intro st
    simp only [processLines]
    split_ifs
    · rw [ih, parseSerialLine_simTime]
      rfl
    · rw [ih]
      rfl
    · rfl

theorem readSerialData_simTime (dec : QByteArray → QString) (tf : QString → ℚ × Bool) (data : QByteArray) (st : State) :
    (readSerialData dec tf data st).1.simTime = st.simTime := by
  simp only [readSerialData]
  rw [processLines_simTime]
  rfl

theorem tick_heading (mode : SourceMode) (sin : ℚ → ℚ) (ts : String) (st : State) :
    (tick mode sin ts st).2.heading =
      f32 (fmod (dmul (advanceClock st.simTime) (f64 10)) (f64 360)) ∧
    (tick mode sin ts st).1.heading =
      f32 (fmod (dmul (advanceClock st.simTime) (f64 10)) (f64 360)) := by
  cases mode <;> exact ⟨rfl, rfl⟩

/-- C6 (heading range), the code at the failing input. In either mode, the
5399th tick after construction advances the clock to 107.99999999999565 (a
non-negative time); there `fmod(simTime * 10.0, 360.0)` is a `double` just
below 360, and storing it in the `float` member `heading` rounds it to exactly
360: both the snapshot and the stored heading are 360, not below 360. -/
theorem heading_reaches_360 (mode : SourceMode) (sin : ℚ → ℚ) (times : Nat → String) :
    (runTicks mode sin times 5399 initialState).simTime =
      3799912185593703 / 35184372088832 ∧
    (0 : ℚ) ≤ 3799912185593703 / 35184372088832 ∧
    fmod (dmul (3799912185593703 / 35184372088832) (f64 10)) (f64 360) < 360 ∧
    (tick mode sin (times 5399) (runTicks mode sin times 5398 initialState)).2.heading = 360 ∧
    (runTicks mode sin times 5399 initialState).heading = 360 ∧
    ¬ ((runTicks mode sin times 5399 initialState).heading < 360) := by
  have h1 : (runTicks mode sin times 5399 initialState).simTime =
      3799912185593703 / 35184372088832 := by
    rw [runTicks_simTime]
    exact clock_after_5399
  have h2 : advanceClock (runTicks mode sin times 5398 initialState).simTime =
      3799912185593703 / 35184372088832 := by
    rw [← tick_simTime mode sin (times 5399)]
    exact h1
  have h3 : f32 (fmod (dmul (3799912185593703 / 35184372088832) (f64 10)) (f64 360)) = 360 := by
    decide!
  have h4 : (tick mode sin (times 5399) (runTicks mode sin times 5398 initialState)).2.heading
      = 360 := by
    rw [(tick_heading mode sin _ _).1, h2, h3]
  have h5 : (runTicks mode sin times 5399 initialState).heading = 360 := by
    show (tick mode sin (times 5399) (runTicks mode sin times 5398 initialState)).1.heading = 360
    rw [(tick_heading mode sin _ _).2, h2, h3]
  refine ⟨h1, by norm_num, by decide!, h4, h5, ?_⟩
  rw [h5]
  exact lt_irrefl _

/-- C7, counterexample. Ten ticks after construction (clock 0.02 at the start)
`simTime` is 0.21999999999999997; that is not `0.02 + 10 * 0.02`, whether the
sum is taken exactly on the `double` constant, exactly on the decimal 0.02, or
in `double` arithmetic. -/
theorem ten_ticks_not_exact :
    (runTicks SourceMode.live (fun _ => 0) (fun _ => "") 10 initialState).simTime =
      990791918021509 / 4503599627370496 ∧
    (runTicks SourceMode.live (fun _ => 0) (fun _ => "") 10 initialState).simTime ≠
      initialState.simTime + 10 * f64 (2 / 100) ∧
    (runTicks SourceMode.live (fun _ => 0) (fun _ => "") 10 initialState).simTime ≠
      initialState.simTime + 10 * (2 / 100) ∧
    (runTicks SourceMode.live (fun _ => 0) (fun _ => "") 10 initialState).simTime ≠
      dadd initialState.simTime (dmul 10 (f64 (2 / 100))) ∧
    (runTicks SourceMode.simulated (fun _ => 0) (fun _ => "") 10 initialState).simTime ≠
      initialState.simTime + 10 * f64 (2 / 100) := by
  rw [runTicks_simTime, runTicks_simTime]
  decide!

/-- C7 (simulation clock advancement), as amended. In either mode each tick
replaces `simTime` by the `double` sum `simTime + 0.02`, rounded once,
whatever the wall clock says; after `N` ticks `simTime` is the `N`-fold
rounded sum. It differs from `start + N * 0.02` (0.02 being the `double`
constant) by at most `N` half-units in the last place: at most
`N * 2^(E-53)` as long as `|start| + N * 0.02 + N * 2^(E-53) < 2^(E+1)`.
Neither `readSerialData` nor `parseSerialLine` changes `simTime`. -/
theorem clock_advance (mode : SourceMode) (sin : ℚ → ℚ) (times : Nat → String) (N : ℕ)
    (st : State) (E : ℤ)
    (hE : |st.simTime| + (N : ℚ) * f64 (2 / 100) + (N : ℚ) * (2 : ℚ) ^ (E - 53)
      < (2 : ℚ) ^ (E + 1)) :
    (runTicks mode sin times N st).simTime = advanceClock^[N] st.simTime ∧
    (∀ t : ℚ, advanceClock t = dadd t (f64 (2 / 100))) ∧
    |(runTicks mode sin times N st).simTime - (st.simTime + (N : ℚ) * f64 (2 / 100))|
      ≤ (N : ℚ) * (2 : ℚ) ^ (E - 53) ∧
    (∀ (fromUtf8 : QByteArray → QString) (toFloat : QString → ℚ × Bool) (data : QByteArray),
      (readSerialData fromUtf8 toFloat data st).1.simTime = st.simTime) ∧
    (∀ (toFloat : QString → ℚ × Bool) (line : QString),
      (parseSerialLine toFloat line st).1.simTime = st.simTime) := by
  refine ⟨runTicks_simTime mode sin times st N, fun _ => rfl, ?_,
    fun dec tf data => readSerialData_simTime dec tf data st,
    fun tf line => parseSerialLine_simTime tf line st⟩
  rw [runTicks_simTime]
  exact advanceClock_iterate_error E st.simTime N hE

theorem clock_advance_witness :
    (|initialState.simTime| + ((10 : ℕ) : ℚ) * f64 (2 / 100) +
        ((10 : ℕ) : ℚ) * (2 : ℚ) ^ ((-2 : ℤ) - 53) < (2 : ℚ) ^ ((-2 : ℤ) + 1)) ∧
    ((runTicks SourceMode.live (fun _ => 0) (fun _ => "") 10 initialState).simTime =
        advanceClock^[10] initialState.simTime ∧
      (∀ t : ℚ, advanceClock t = dadd t (f64 (2 / 100))) ∧
      |(runTicks SourceMode.live (fun _ => 0) (fun _ => "") 10 initialState).simTime -
          (initialState.simTime + ((10 : ℕ) : ℚ) * f64 (2 / 100))|
        ≤ ((10 : ℕ) : ℚ) * (2 : ℚ) ^ ((-2 : ℤ) - 53) ∧
      (∀ (fromUtf8 : QByteArray → QString) (toFloat : QString → ℚ × Bool) (data : QByteArray),
        (readSerialData fromUtf8 toFloat data initialState).1.simTime =
          initialState.simTime) ∧
      (∀ (toFloat : QString → ℚ × Bool) (line : QString),
        (parseSerialLine toFloat line initialState).1.simTime = initialState.simTime)) :=
  ⟨by decide!,
    clock_advance SourceMode.live (fun _ => 0) (fun _ => "") 10 initialState (-2) (by decide!)⟩

/-- C10, counterexample. The 10th tick after construction computes its
snapshot at clock value 0.21999999999999997, which is not `0.02 * 11`: neither
the exact product with the `double` constant, nor the `double` product, nor
the decimal 0.22, nor the `double` nearest to 0.22. -/
theorem tenth_snapshot_time_not_exact :
    (runTicks SourceMode.live (fun _ => 0) (fun _ => "") 10 initialState).simTime =
      990791918021509 / 4503599627370496 ∧
    (runTicks SourceMode.live (fun _ => 0) (fun _ => "") 10 initialState).simTime ≠
      f64 (2 / 100) * 11 ∧
    (runTicks SourceMode.live (fun _ => 0) (fun _ => "") 10 initialState).simTime ≠
      dmul (f64 (2 / 100)) 11 ∧
    (runTicks SourceMode.live (fun _ => 0) (fun _ => "") 10 initialState).simTime ≠
      (2 / 100) * 11 ∧
    (runTicks SourceMode.live (fun _ => 0) (fun _ => "") 10 initialState).simTime ≠
      f64 ((2 / 100) * 11) := by
  rw [runTicks_simTime]
  decide!

/-- C10 (clock value seen by each snapshot), as amended. The constructor sets
`simTime` to 0.02 and each tick increments it before evaluating any formula:
tick number `n + 1` after start-up, in either mode, computes its snapshot at
the clock value reached by `n + 1` rounded additions of 0.02 to 0.02. That
value is positive (never 0), it is 0.04 for the first tick, and it lies within
`(n + 1) * 2^(E-53)` of `0.02 * (n + 2)` as long as
`0.02 * (n + 2) + (n + 1) * 2^(E-53) < 2^(E+1)`. -/
theorem snapshot_clock (mode : SourceMode) (sin : ℚ → ℚ) (times : Nat → String) (n : ℕ) :
    initialState.simTime = f64 (2 / 100) ∧
    (tick mode sin (times (n + 1)) (runTicks mode sin times n initialState)).2 =
      (match mode with
        | SourceMode.live =>
          displaySnapshot sin (times (n + 1)) (runTicks mode sin times n initialState).pitch
            (runTicks mode sin times n initialState).roll
            (runTicks mode sin times (n + 1) initialState).simTime
        | SourceMode.simulated =>
          simulationSnapshot sin (times (n + 1))
            (runTicks mode sin times (n + 1) initialState).simTime) ∧
    (runTicks mode sin times (n + 1) initialState).simTime =
      advanceClock^[n + 1] (f64 (2 / 100)) ∧
    0 < (runTicks mode sin times (n + 1) initialState).simTime ∧
    (runTicks mode sin times 1 initialState).simTime = f64 (4 / 100) ∧
    (∀ E : ℤ,
      f64 (2 / 100) * ((n : ℚ) + 2) + ((n : ℚ) + 1) * (2 : ℚ) ^ (E - 53) < (2 : ℚ) ^ (E + 1) →
      |(runTicks mode sin times (n + 1) initialState).simTime - f64 (2 / 100) * ((n : ℚ) + 2)|
        ≤ ((n : ℚ) + 1) * (2 : ℚ) ^ (E - 53)) := by
  have hT := runTicks_simTime mode sin times initialState (n + 1)
  have h0 : initialState.simTime = f64 (2 / 100) := rfl
  rw [h0] at hT
  refine ⟨rfl, ?_, hT, ?_, ?_, ?_⟩
  · cases mode <;> rfl
  · rw [hT]
    exact advanceClock_iterate_pos _ clock_step_pos _
  · rw [runTicks_simTime, h0]
    decide!
  · intro E hE
    rw [hT]
    have hc := clock_step_pos
    have h := advanceClock_iterate_error E (f64 (2 / 100)) (n + 1) (by
      rw [abs_of_pos hc]
      push_cast
      linarith)
    push_cast at h
    have e : f64 (2 / 100) + ((n : ℚ) + 1) * f64 (2 / 100) = f64 (2 / 100) * ((n : ℚ) + 2) := by
      ring
    rw [e] at h
    exact h

end Horus
